import Mathlib

set_option maxHeartbeats 1000000

/-!
Shallow embedding of the `pandas-io` ROOT reader
(`src/pandas/io/external/root.py`) and proofs about it.

Python strings are modelled as `List Char`.  The external collaborators
(`root_numpy.root2array`, `list_trees`, `list_branches`, `ROOT.TFile`) are
modelled by an abstract `RootSource` structure carrying the data they would
return, following the contract in section 6 of the specification.  The
standard-library helper `fnmatch.fnmatch` (Python 2) is modelled by a direct
glob matcher below.
-/

/-- The character with code 123 (opening curly brace). -/
def lbChar : Char := Char.ofNat 123

/-- The character with code 125 (closing curly brace). -/
def rbChar : Char := Char.ofNat 125

/-- The backslash character (code 92). -/
def bsChar : Char := Char.ofNat 92

/-- The newline character (code 10); a Python regex `.` does not match it. -/
def nlChar : Char := Char.ofNat 10

/-- The column name `index`, which `read_root` treats specially. -/
def strIndex : List Char := ['i', 'n', 'd', 'e', 'x']

/-! ### Models of the Python string operations used by `root.py` -/

/-- Model of Python `s.find(sub)` restricted to successful lookups: the index
of the first occurrence of `sub` as a contiguous substring of `s`, or `none`
when there is no occurrence (Python returns `-1` there; `root.py` only calls
`find` on an actual substring). -/
def pyFind (s sub : List Char) : Option Nat :=
  match s with
  | [] => if sub.isEmpty then some 0 else none
  | _ :: rest =>
    if sub.isPrefixOf s then some 0
    else (pyFind rest sub).map (· + 1)

/-- Model of Python `s.replace(chr(92) ++ chr(125), chr(125))`: rewrite each
(left-to-right, non-overlapping) escaped closing brace to a bare closing
brace.  Used by `expand_braces` when no brace group is left. -/
def unesc : List Char → List Char
  | [] => []
  | [c] => [c]
  | c :: c2 :: rest =>
    if c = bsChar ∧ c2 = rbChar then rbChar :: unesc rest
    else c :: unesc (c2 :: rest)

/-- Model of Python `sub.replace(chr(125), chr(92) ++ chr(125))`: put a
backslash before every closing brace. -/
def escRB (l : List Char) : List Char :=
  (l.map (fun c => if c = rbChar then [bsChar, rbChar] else [c])).flatten

/-- Whether a character is one of the two curly braces; the character set of
the Python call `sub.strip(braces)` in `expand_braces`. -/
def isBrace (c : Char) : Bool := c = lbChar ∨ c = rbChar

/-- Model of Python `sub.strip(braces)`: drop curly braces from both ends. -/
def pystrip (l : List Char) : List Char :=
  ((l.dropWhile isBrace).reverse.dropWhile isBrace).reverse

/-- Model of Python `s.split(sep)` for a one-character separator `sep = comma`
(the call in `expand_braces`); empty pieces are kept. -/
def pysplit : List Char → List (List Char)
  | [] => [[]]
  | c :: rest =>
    if c = ',' then [] :: pysplit rest
    else
      match pysplit rest with
      | [] => [[c]]
      | h :: t => (c :: h) :: t

/-! ### Model of `re.search` for the fixed pattern of `expand_braces`

`expand_braces` compiles the raw pattern `.*(\{.+?[^\\]\})` (dot-star, then a
group: brace, lazy one-or-more, one non-backslash character, closing brace)
and calls `search`.  For this fixed pattern, Python's backtracking semantics
are: the match starts at the leftmost feasible position, the greedy `.*`
pushes the group start as far right as possible, and the lazy `.+?` makes the
group as short as possible from that start.  `.` does not match newline;
the negated class `[^\\]` matches any character other than a backslash
(including newline). -/

/-- Lazy scan for the end of the group starting at index `i`: find the least
`j = i + t + 2` (with `t ≥ 1` characters matched by `.+?`, none of them a
newline) such that `s[j-1]` is not a backslash and `s[j]` is a closing
brace. -/
def lazyEnd (s : List Char) (i : Nat) : Nat → Nat → Option Nat
  | 0, _ => none
  | fuel + 1, t =>
    match s.get? (i + t) with
    | none => none
    | some c =>
      if c = nlChar then none
      else
        match s.get? (i + t + 1), s.get? (i + t + 2) with
        | some c1, some c2 =>
          if c1 ≠ bsChar ∧ c2 = rbChar then some (i + t + 2)
          else lazyEnd s i fuel (t + 1)
        | _, _ => lazyEnd s i fuel (t + 1)

/-- Try to match the regex group `\{.+?[^\\]\}` starting at index `i`. -/
def matchGroupAt (s : List Char) (i : Nat) : Option Nat :=
  if s.get? i = some lbChar then lazyEnd s i (s.length + 1) 1 else none

/-- Length of the run of non-newline characters starting at position `p`:
how far the greedy `.*` can reach from `p`. -/
def nlRun (s : List Char) (p : Nat) : Nat :=
  ((s.drop p).takeWhile (fun c => c ≠ nlChar)).length

/-- Greedy backtracking of `.*`: try group starts `p + d, p + d - 1, ..., p`
and return the first (i.e. rightmost) group found. -/
def greedyDown (s : List Char) (p : Nat) : Nat → Option (Nat × Nat)
  | 0 => (matchGroupAt s p).map (fun j => (p, j))
  | d + 1 =>
    match matchGroupAt s (p + (d + 1)) with
    | some j => some (p + (d + 1), j)
    | none => greedyDown s p d

/-- `re.search` outer loop: try match start positions `p = 0, 1, ...`. -/
def searchFrom (s : List Char) : Nat → Nat → Option (Nat × Nat)
  | 0, _ => none
  | fuel + 1, p =>
    if p > s.length then none
    else
      match greedyDown s p (nlRun s p) with
      | some r => some r
      | none => searchFrom s fuel (p + 1)

/-- Model of `re.compile(regex).search(s)` for the brace-group regex of
`expand_braces`: `some (i, j)` means the captured group is `s[i..j]`
(both ends inclusive). -/
def findGroup (s : List Char) : Option (Nat × Nat) :=
  searchFrom s (s.length + 1) 0

/-! ### `expand_braces`

The Python function recurses without a structural bound, so the embedding
takes explicit fuel and returns `none` when the fuel runs out; the
termination theorem for claim C9 shows that the fuel `expandFuel` below is
always sufficient, and `expand_braces` is the fueled function applied at that
bound. -/

/-- Number of closing braces that are not immediately preceded by a
backslash; `prev` is the character just before the list (the initial
sentinel `lbChar` is not a backslash, so a leading closing brace counts).
This is the quantity that the escape branch of `expand_braces` strictly
decreases; it is the first component of its termination measure. -/
def ucAux (prev : Char) : List Char → Nat
  | [] => 0
  | c :: rest => (if c = rbChar ∧ prev ≠ bsChar then 1 else 0) + ucAux c rest

/-- Unescaped-closing-brace count of a whole string. -/
def ucount (l : List Char) : Nat := ucAux lbChar l

/-- Fuel that the termination theorem proves sufficient for `expandF`. -/
def expandFuel (s : List Char) : Nat := (s.length + 2) * 3 ^ ucount s

/-- Accumulation of the recursive results over the comma-split pieces
(`res.extend(...)` in the loop of the source), propagating fuel
exhaustion. -/
def combineOpt (f : List Char → Option (List (List Char))) :
    List (List Char) → Option (List (List Char))
  | [] => some []
  | pat :: rest =>
    match f pat, combineOpt f rest with
    | some r, some rs => some (r ++ rs)
    | _, _ => none

/-- Fueled model of `expand_braces` (`root.py`, lines 14-39).  Mirrors the
source: search for a brace group; if none, unescape and return a singleton;
if the group has a comma, substitute each alternative at the position of the
first occurrence of the group text and recurse; otherwise escape the group's
closing braces and recurse once.  Every branch returns `list(set(res))`,
modelled as `List.eraseDups` (CPython's set iteration order is unspecified;
all claims about the result are at set granularity). -/
def expandF : Nat → List Char → Option (List (List Char))
  | 0, _ => none
  | fuel + 1, s =>
    match findGroup s with
    | none => some (List.eraseDups [unesc s])
    | some (i, j) =>
      let sub := (s.drop i).take (j + 1 - i)
      let ob := (pyFind s sub).getD 0
      let cb := ob + sub.length - 1
      if ',' ∈ sub then
        match combineOpt
            (fun pat => expandF fuel (s.take ob ++ pat ++ s.drop (cb + 1)))
            (pysplit (pystrip sub)) with
        | some rs => some rs.eraseDups
        | none => none
      else
        match expandF fuel (s.take ob ++ escRB sub ++ s.drop (cb + 1)) with
        | some rs => some rs.eraseDups
        | none => none

/-- `expand_braces` itself: the fueled model run with provably sufficient
fuel. -/
def expand_braces (s : List Char) : List (List Char) :=
  (expandF (expandFuel s) s).getD []

/-! ### Model of Python 2's `fnmatch.fnmatch`

`get_matching_variables` tests branches against shell glob patterns with
`fnmatch.fnmatch(b, p)`.  This helper belongs to the Python standard library
(an external collaborator of the repository), modelled here with the
documented glob semantics of `fnmatch.translate`: `*` matches any run of
characters, `?` exactly one, `[...]` a character class (leading `!` negates;
a leading `]` is literal content; `a-b` is a code-point range; an unmatched
`[` is literal); every other character, backslash included, matches only
itself, and the whole name must be matched. -/

/-- Split a character-class body at the closing bracket: `some (stuff, rest)`
where `stuff` is the class content and `rest` the pattern after `]`. -/
def findRBrk : List Char → Option (List Char × List Char)
  | [] => none
  | c :: rest =>
    if c = ']' then some ([], rest)
    else (findRBrk rest).map (fun ab => (c :: ab.1, ab.2))

/-- Scan of `fnmatch.translate` after an opening `[`: skip one leading `!`
and one leading `]` (both become class content), then cut at the next `]`.
Returns `none` for an unterminated class. -/
def classSplit (ps : List Char) : Option (List Char × List Char) :=
  match ps with
  | [] => none
  | c0 :: r0 =>
    if c0 = '!' then
      match r0 with
      | [] => none
      | c1 :: r1 =>
        if c1 = ']' then (findRBrk r1).map (fun ab => (c0 :: c1 :: ab.1, ab.2))
        else (findRBrk r0).map (fun ab => (c0 :: ab.1, ab.2))
    else if c0 = ']' then (findRBrk r0).map (fun ab => (c0 :: ab.1, ab.2))
    else findRBrk ps

/-- Membership of a character in a class body: literal characters and
`a-b` code-point ranges (a trailing or leading dash is literal). -/
def inClass (d : Char) : List Char → Bool
  | [] => false
  | [a] => a = d
  | a :: h :: rest2 =>
    if h = '-' then
      match rest2 with
      | [] => (a = d) || (h = d)
      | b :: rest3 =>
        (decide (a.toNat ≤ d.toNat ∧ d.toNat ≤ b.toNat)) || inClass d rest3
    else (a = d) || inClass d (h :: rest2)

/-- Fueled glob matcher: `globM fuel pat name`.  Each step consumes at least
one character of the pattern or of the name, so `fnmatch` below supplies
sufficient fuel. -/
def globM : Nat → List Char → List Char → Bool
  | 0, _, _ => false
  | _ + 1, [], s => s.isEmpty
  | fuel + 1, c :: ps, s =>
    if c = '*' then
      globM fuel ps s ||
        (match s with
         | [] => false
         | _ :: s2 => globM fuel (c :: ps) s2)
    else if c = '?' then
      match s with
      | [] => false
      | _ :: s2 => globM fuel ps s2
    else if c = '[' then
      match classSplit ps with
      | some (stuff, ps2) =>
        let neg := stuff.head? = some '!'
        let cls := if neg then stuff.tail else stuff
        match s with
        | [] => false
        | d :: s2 => (if neg then !inClass d cls else inClass d cls) && globM fuel ps2 s2
      | none =>
        match s with
        | [] => false
        | d :: s2 => (d = '[') && globM fuel ps s2
    else
      match s with
      | [] => false
      | d :: s2 => (d = c) && globM fuel ps s2

/-- Model of `fnmatch.fnmatch(name, pat)` (POSIX `normcase` is the
identity). -/
def fnmatch (name pat : List Char) : Bool :=
  globM (pat.length + name.length + 1) pat name

/-! ### Errors raised by `read_root`

The source raises `ValueError` (or `ImportError`) with distinct messages;
the specification gives the four conceptual names below.  Payloads carry the
data interpolated into the message. -/

/-- Conceptual error kinds of the loader, with their message payloads. -/
inductive RootErr where
  /-- `More than one tree found in {path}` (AmbiguousTreeError). -/
  | moreThanOneTree (path : List Char)
  /-- `Pattern {p} did not match any branch` (PatternNotFoundError). -/
  | patternNotFound (pat : List Char)
  /-- `index variable is being ignored` (ReservedColumnError). -/
  | indexIgnored
  /-- `list.remove(x): x not in list`, raised by `all_vars.remove(var)`. -/
  | removeMissing (name : List Char)
deriving DecidableEq, Repr

/-- The message text of the ambiguous-tree error, as formatted by the
source: it interpolates the file path, not the tree keys. -/
def errMessage : RootErr → List Char
  | .moreThanOneTree path => ("More than one tree found in ").toList ++ path
  | .patternNotFound pat => ("Pattern ").toList ++ pat ++ (" did not match any branch").toList
  | .indexIgnored => ("index variable is being ignored").toList
  | .removeMissing name => ("list.remove(x): x not in list ").toList ++ name

/-- Whether `needle` occurs as a contiguous substring of `hay`. -/
def containsSub (hay needle : List Char) : Bool :=
  (pyFind hay needle).isSome

/-! ### `get_matching_variables` -/

/-- One iteration of the outer loop of `get_matching_variables` for pattern
`p`: walk `branches` in order and append each branch that matches `p` and is
not yet selected (the membership test is against the growing list, exactly
as in the source). -/
def addMatches (branches : List (List Char)) (sel : List (List Char))
    (p : List Char) : List (List Char) :=
  branches.foldl
    (fun acc b => if fnmatch b p ∧ ¬ b ∈ acc then acc ++ [b] else acc) sel

/-- The selection that `get_matching_variables` builds when no pattern
fails: patterns processed in order, each adding its new matches. -/
def selectVars (branches patterns : List (List Char)) : List (List Char) :=
  patterns.foldl (addMatches branches) []

/-- Loop of `get_matching_variables` (`root.py`, lines 41-54): for each
pattern, record whether it matched anything and extend the selection; if a
pattern matched nothing and `fail` is set, raise. -/
def gmvGo (branches : List (List Char)) (fail : Bool) :
    List (List Char) → List (List Char) → Except RootErr (List (List Char))
  | [], sel => .ok sel
  | p :: ps, sel =>
    let found := branches.any (fun b => fnmatch b p)
    let sel2 := addMatches branches sel p
    if ¬ found ∧ fail then .error (.patternNotFound p)
    else gmvGo branches fail ps sel2

/-- `get_matching_variables(branches, patterns, fail)`. -/
def get_matching_variables (branches patterns : List (List Char))
    (fail : Bool) : Except RootErr (List (List Char)) :=
  gmvGo branches fail patterns []

/-! ### `read_root` -/

/-- Python truthiness of the `columns` / `ignore` arguments: `None`, a
string, or a list of strings. -/
inductive PyArg where
  /-- The Python value `None` (argument omitted). -/
  | pynone : PyArg
  /-- A single string (the source wraps it into a one-element list). -/
  | pystr (s : List Char) : PyArg
  /-- A list of strings. -/
  | pylist (l : List (List Char)) : PyArg
deriving DecidableEq, Repr

/-- `not arg` in Python: `None`, the empty string and the empty list are
falsy. -/
def PyArg.falsy : PyArg → Bool
  | .pynone => true
  | .pystr s => s.isEmpty
  | .pylist l => l.isEmpty

/-- The `isinstance(arg, basestring)` normalisation: a single string becomes
a one-element list. -/
def PyArg.asList : PyArg → List (List Char)
  | .pynone => []
  | .pystr s => [s]
  | .pylist l => l

/-- Abstract model of the external collaborators for one ROOT file: the
operations of section 6 of the specification.  `trees` is `list_trees(path)`;
`branchesOf` is `list_branches(path, tree)`; `rowsOf` the tree's rows (their
length is `TFile.Get(tree).GetEntries()`); `selFn` the row predicate denoted
by a `where` selection expression; `projFn` the projection of a raw row onto
a list of requested branches, applied by `root2array`. -/
structure RootSource (α : Type) where
  /-- The file path (only used in error messages). -/
  path : List Char
  /-- Keys of the trees contained in the file. -/
  trees : List (List Char)
  /-- Branch names of a given tree. -/
  branchesOf : List Char → List (List Char)
  /-- The rows stored in a given tree. -/
  rowsOf : List Char → List α
  /-- Semantics of the `where` selection expression. -/
  selFn : Option (List Char) → α → Bool
  /-- Projection of a row onto the requested branch list. -/
  projFn : List (List Char) → α → α

/-- Model of `root_numpy.root2array(path, tree, vars, start, stop,
selection)`: take the requested row range (the whole tree when no range is
given), keep the rows passing the selection, and project each row onto the
requested branches. -/
def root2array {α : Type} (src : RootSource α) (tree : List Char)
    (vars : List (List Char)) (range? : Option (Nat × Nat))
    (whereE : Option (List Char)) : List α :=
  let rows := src.rowsOf tree
  let rows := match range? with
    | none => rows
    | some se => (rows.drop se.1).take (se.2 - se.1)
  (rows.filter (src.selFn whereE)).map (src.projFn vars)

/-- The table produced by `convert_to_dataframe`: the raw rows, plus whether
the field `index` was present and became the frame's designated index. -/
structure DFrame (α : Type) where
  /-- Whether the raw array had an `index` field used as the frame index. -/
  indexed : Bool
  /-- The rows of the frame. -/
  rows : List α
deriving DecidableEq, Repr

/-- `convert_to_dataframe(arr)` where `names` are the fields of the raw
structured array (the requested branches). -/
def convertDF {α : Type} (names : List (List Char)) (arr : List α) :
    DFrame α :=
  ⟨decide (strIndex ∈ names), arr⟩

/-- Result of `read_root`: a single frame, or (with a truthy `chunksize`)
the finite sequence of frames that the returned generator yields. -/
inductive ReadOut (α : Type) where
  /-- A single table. -/
  | single (df : DFrame α) : ReadOut α
  /-- The chunked generator's yields, in order. -/
  | chunks (dfs : List (DFrame α)) : ReadOut α
deriving DecidableEq, Repr

/-- Tree-key resolution at the top of `read_root` (`root.py`, lines 89-94):
a falsy `tree_key` (absent or empty) is looked up in `list_trees`; the file
must then contain exactly one tree. -/
def resolveTreeKey {α : Type} (src : RootSource α)
    (tree_key : Option (List Char)) : Except RootErr (List Char) :=
  let falsy := match tree_key with
    | none => true
    | some t => t.isEmpty
  if falsy then
    match src.trees with
    | [t] => .ok t
    | _ => .error (.moreThanOneTree src.path)
  else .ok (tree_key.getD [])

/-- Column-inclusion step (`root.py`, lines 96-108): falsy `columns` selects
every branch; otherwise the patterns (with `index` force-appended when that
branch exists) are brace-expanded, flattened and resolved with
`fail=True`. -/
def includeVars {α : Type} (src : RootSource α) (t : List Char)
    (columns : PyArg) : Except RootErr (List (List Char)) :=
  let branches := src.branchesOf t
  if columns.falsy then .ok branches
  else
    let cols := columns.asList
    let cols := if strIndex ∈ branches then cols ++ [strIndex] else cols
    let cols := (cols.map expand_braces).flatten
    get_matching_variables branches cols true

/-- Names removed by a truthy `ignore` argument: the ignore patterns are
resolved against the branches with `fail=False` and the matched names are
then brace-expanded (`root.py`, lines 112-114). -/
def ignoredNames {α : Type} (src : RootSource α) (t : List Char)
    (ignore : PyArg) : List (List Char) :=
  ((selectVars (src.branchesOf t) ignore.asList).map expand_braces).flatten

/-- Model of `list.remove(x)`: drop the first occurrence of `x`, raising
when `x` is absent. -/
def pyremove (x : List Char) :
    List (List Char) → Except RootErr (List (List Char))
  | [] => .error (.removeMissing x)
  | b :: rest =>
    if b = x then .ok rest
    else (pyremove x rest).map (b :: ·)

/-- The loop `for var in ignored: all_vars.remove(var)`. -/
def removeEach (l : List (List Char)) :
    List (List Char) → Except RootErr (List (List Char))
  | [] => .ok l
  | x :: xs =>
    match pyremove x l with
    | .ok l2 => removeEach l2 xs
    | .error e => .error e

/-- Column-exclusion step (`root.py`, lines 110-118): nothing happens for a
falsy `ignore`; otherwise the resolved, expanded ignore names must not
contain `index`, and each of them is removed from the selection. -/
def ignoreVars {α : Type} (src : RootSource α) (t : List Char)
    (ignore : PyArg) (all_vars : List (List Char)) :
    Except RootErr (List (List Char)) :=
  if ignore.falsy then .ok all_vars
  else
    let ignored := ignoredNames src t ignore
    if strIndex ∈ ignored then .error .indexIgnored
    else removeEach all_vars ignored

/-- The shared pure part of `read_root`: resolve the tree key, then the
selected columns (inclusion followed by exclusion). -/
def resolveVars {α : Type} (src : RootSource α)
    (tree_key : Option (List Char)) (columns ignore : PyArg) :
    Except RootErr (List Char × List (List Char)) :=
  match resolveTreeKey src tree_key with
  | .error e => .error e
  | .ok t =>
    match includeVars src t columns with
    | .error e => .error e
    | .ok vs =>
      match ignoreVars src t ignore vs with
      | .error e => .error e
      | .ok vs2 => .ok (t, vs2)

/-- Exact ceiling division `ceil(n / c)`: the chunk count named by the
specification.  The source computes its chunk count through doubles
(`int(ceil(float(n_entries) / chunksize))`, `root.py` line 125), which is
modelled exactly by `pyChunkCount` below; the two agree only while the
float arithmetic is exact. -/
def ceilDiv (n c : Nat) : Nat := (n + c - 1) / c

/-- Fuelled binary logarithm: `log2F f n` is the floor of `log2 n` whenever
`1 ≤ n ≤ f`. -/
def log2F : Nat → Nat → Nat
  | 0, _ => 0
  | f + 1, n => if n ≤ 1 then 0 else log2F f (n / 2) + 1

/-- `rdiv x d` rounds the exact quotient `x / d` to the nearest integer
with ties to even — the rounding step of IEEE-754 round-to-nearest. -/
def rdiv (x d : Nat) : Nat :=
  let q := x / d
  let r := x % d
  if 2 * r < d then q
  else if d < 2 * r then q + 1
  else if q % 2 = 0 then q else q + 1

/-- A non-negative IEEE-754 binary64 value as the exact dyadic
`mant * 2 ^ texp`; nonzero values carry the normalised 53-bit mantissa
(`2^52 ≤ mant < 2^53`).  The exponent is unbounded, so double overflow
(`float(n)` raises `OverflowError` for `n ≥ 2^1024`) and subnormal
underflow are outside the model; every quantity reached below stays far
inside the normal range. -/
structure D64 where
  /-- The 53-bit mantissa (`0` only for the value zero). -/
  mant : Nat
  /-- The binary exponent applied to the mantissa. -/
  texp : Int
  deriving DecidableEq, Repr

/-- `float(n)` for a Python non-negative integer `n`: round to 53
significant bits, nearest, ties to even.  Exact for `n < 2 ^ 53`. -/
def floatOfNat (n : Nat) : D64 :=
  if n = 0 then ⟨0, 0⟩
  else
    let e := log2F n n
    if e ≤ 52 then ⟨n * 2 ^ (52 - e), (e : Int) - 52⟩
    else
      let m := rdiv n (2 ^ (e - 52))
      if m = 2 ^ 53 then ⟨2 ^ 52, (e : Int) - 51⟩ else ⟨m, (e : Int) - 52⟩

/-- IEEE-754 binary64 division of non-negative doubles: the correctly
rounded (nearest, ties to even) quotient, with the carry into the next
binade when rounding reaches `2^53`.  A zero divisor yields junk (the
source guards `chunksize` for truthiness before dividing). -/
def floatDiv (a b : D64) : D64 :=
  if a.mant = 0 ∨ b.mant = 0 then ⟨0, 0⟩
  else if b.mant ≤ a.mant then
    let m := rdiv (a.mant * 2 ^ 52) b.mant
    if m = 2 ^ 53 then ⟨2 ^ 52, a.texp - b.texp - 51⟩
    else ⟨m, a.texp - b.texp - 52⟩
  else
    let m := rdiv (a.mant * 2 ^ 53) b.mant
    if m = 2 ^ 53 then ⟨2 ^ 52, a.texp - b.texp - 52⟩
    else ⟨m, a.texp - b.texp - 53⟩

/-- `int(math.ceil(x))` of a non-negative double: the exact ceiling of the
dyadic value. -/
def ceilD (d : D64) : Nat :=
  if 0 ≤ d.texp then d.mant * 2 ^ d.texp.toNat
  else (d.mant + 2 ^ (-d.texp).toNat - 1) / 2 ^ (-d.texp).toNat

/-- The chunk count `int(ceil(float(n_entries) / chunksize))` computed by
`read_root` (`root.py` line 125): both operands pass through `float`, the
division rounds once more, and the ceiling is exact. -/
def pyChunkCount (n c : Nat) : Nat :=
  ceilD (floatDiv (floatOfNat n) (floatOfNat c))

/-- `read_root(path, tree_key, columns, ignore, chunksize, where)`
(`root.py`, lines 56-133).  With a truthy `chunksize` the generator's yields
are returned as a list: `pyChunkCount` many chunks, chunk `k` reading rows
`[k*c, (k+1)*c)` (clamped by the reader) with the `where` selection applied
per chunk. -/
def readRoot {α : Type} (src : RootSource α) (tree_key : Option (List Char))
    (columns ignore : PyArg) (chunksize : Option Nat)
    (whereE : Option (List Char)) : Except RootErr (ReadOut α) :=
  match resolveVars src tree_key columns ignore with
  | .error e => .error e
  | .ok tv =>
  let t := tv.1
  let all_vars := tv.2
  match chunksize with
  | some c =>
    if c ≠ 0 then
      let n := (src.rowsOf t).length
      .ok (.chunks ((List.range (pyChunkCount n c)).map
        (fun k => convertDF all_vars
          (root2array src t all_vars (some (k * c, (k + 1) * c)) whereE))))
    else .ok (.single (convertDF all_vars (root2array src t all_vars none whereE)))
  | none => .ok (.single (convertDF all_vars (root2array src t all_vars none whereE)))

/-! ### The spec-side characterisation of the selector

Used to state claim C5: each pattern contributes, in `available_columns`
order, exactly the columns whose first matching pattern it is. -/

/-- First-match selection: pattern `p` contributes the columns matching `p`,
in branch order; columns already matched by an earlier pattern are excluded
from the pool for the later patterns. -/
def firstMatchSel (branches : List (List Char)) :
    List (List Char) → List (List Char)
  | [] => []
  | p :: ps =>
    branches.filter (fun b => fnmatch b p) ++
      firstMatchSel (branches.filter (fun b => ! fnmatch b p)) ps

/-! ### Concrete sources used by witnesses and counterexamples -/

/-- A one-element tree-key list. -/
def treeT : List Char := ['T']

/-- Branch name `AB`. -/
def nameAB : List Char := ['A', 'B']

/-- Branch name `AC`. -/
def nameAC : List Char := ['A', 'C']

/-- The include pattern `A*`. -/
def patAstar : List Char := ['A', '*']

/-- A branch name containing an escaped closing brace: `a`, backslash,
closing brace, `b`. -/
def nameEsc : List Char := ['a', bsChar, rbChar, 'b']

/-- The unescaped twin of `nameEsc`: `a`, closing brace, `b`. -/
def nameUnesc : List Char := ['a', rbChar, 'b']

/-- Tree key `T1`. -/
def keyT1 : List Char := ['T', '1']

/-- Tree key `T2`. -/
def keyT2 : List Char := ['T', '2']

/-- A file path used by the concrete sources. -/
def pathF : List Char := ['f']

/-- Source with one tree of ten rows and one branch; drives the chunking
witness (`N = 10`). -/
def srcChunk : RootSource Nat :=
  ⟨pathF, [treeT], fun _ => [nameAB], fun _ => List.range 10,
    fun _ _ => true, fun _ a => a⟩

/-- Source with one tree of `2^53 + 1` rows; `float` cannot represent that
row count, which drives the chunk-count counterexample for claim C1. -/
def srcBig : RootSource Unit :=
  ⟨pathF, [treeT], fun _ => [nameAB], fun _ => List.replicate (2 ^ 53 + 1) (),
    fun _ _ => true, fun _ a => a⟩

/-- Source whose tree has a branch literally named `index`. -/
def srcIdx : RootSource Nat :=
  ⟨pathF, [treeT], fun _ => [strIndex, nameAB], fun _ => List.range 4,
    fun _ _ => true, fun _ a => a⟩

/-- Source with branches `AB` and `AC`; drives the include/exclude
example. -/
def srcAB : RootSource Nat :=
  ⟨pathF, [treeT], fun _ => [nameAB, nameAC], fun _ => [],
    fun _ _ => true, fun _ a => a⟩

/-- Source with the two branches `nameEsc` and `nameUnesc`; drives the
counterexample for claim C3. -/
def srcEsc : RootSource Nat :=
  ⟨pathF, [treeT], fun _ => [nameEsc, nameUnesc], fun _ => [],
    fun _ _ => true, fun _ a => a⟩

/-- Source containing two trees; drives the counterexample for claim C4. -/
def srcTwo : RootSource Nat :=
  ⟨pathF, [keyT1, keyT2], fun _ => [nameAB], fun _ => [],
    fun _ _ => true, fun _ a => a⟩

/-! ## Lemmas

### Counting unescaped closing braces -/

theorem ucAux_append (u v : List Char) (p : Char) :
    ucAux p (u ++ v) = ucAux p u + ucAux (u.getLastD p) v := by
  induction u generalizing p with
  | nil => simp [ucAux]
  | cons c u ih =>
    simp only [List.cons_append, ucAux, List.getLastD_cons, List.append_eq]
    rw [ih c]
    omega

theorem escRB_append (a b : List Char) : escRB (a ++ b) = escRB a ++ escRB b := by
  simp [escRB]

theorem ucAux_escRB (p : Char) (l : List Char) : ucAux p (escRB l) = 0 := by
  induction l generalizing p with
  | nil => simp [escRB, ucAux]
  | cons c rest ih =>
    by_cases hc : c = rbChar
    · subst hc
      have : escRB (rbChar :: rest) = bsChar :: rbChar :: escRB rest := by
        simp [escRB]
      rw [this]
      have hbs : ¬ (bsChar = rbChar) := by decide
      have hbb : ¬ (bsChar ≠ bsChar) := by simp
      simp [ucAux, hbs, hbb, ih]
    · have : escRB (c :: rest) = c :: escRB rest := by
        simp [escRB, hc]
      rw [this]
      simp [ucAux, hc, ih]

theorem ucAux_prev_le (l : List Char) (p q : Char) (hq : q ≠ bsChar) :
    ucAux p l ≤ ucAux q l := by
  cases l with
  | nil => simp [ucAux]
  | cons c rest =>
    simp only [ucAux]
    have : (if c = rbChar ∧ p ≠ bsChar then 1 else 0) ≤
        (if c = rbChar ∧ q ≠ bsChar then 1 else 0) := by
      by_cases hc : c = rbChar
      · simp [hc, hq]
        split <;> omega
      · simp [hc]
    omega

/-- A middle segment preceded by a non-backslash character contributes at
most the whole list's count, whatever character precedes it elsewhere. -/
theorem ucAux_infix_le (u m v : List Char) (p q : Char)
    (hu : u.getLastD q ≠ bsChar) :
    ucAux p m ≤ ucAux q (u ++ m ++ v) := by
  rw [List.append_assoc, ucAux_append u (m ++ v) q, ucAux_append m v (u.getLastD q)]
  have := ucAux_prev_le m p (u.getLastD q) hu
  omega

/-! ### `pyFind` -/

theorem pyFind_spec (s sub : List Char) (k : Nat)
    (h : pyFind s sub = some k) :
    s = s.take k ++ sub ++ s.drop (k + sub.length) := by
  induction s generalizing k with
  | nil =>
    simp only [pyFind] at h
    split at h
    · rename_i he
      simp only [List.isEmpty_iff] at he
      cases h
      simp [he]
    · cases h
  | cons c rest ih =>
    simp only [pyFind] at h
    split at h
    · rename_i hp
      cases h
      have hpre : sub <+: (c :: rest) := by
        have := List.isPrefixOf_iff_prefix.mp hp
        exact this
      obtain ⟨w, hw⟩ := hpre
      rw [← hw]
      simp [List.drop_left]
    · rename_i hp
      cases hk : pyFind rest sub with
      | none => rw [hk] at h; cases h
      | some k0 =>
        rw [hk] at h
        simp only [Option.map_some'] at h
        cases h
        have := ih k0 hk
        calc c :: rest = c :: (rest.take k0 ++ sub ++ rest.drop (k0 + sub.length)) := by rw [← this]
          _ = (c :: rest).take (k0 + 1) ++ sub ++ (c :: rest).drop (k0 + 1 + sub.length) := by
              simp only [List.take_succ_cons, List.cons_append]
              have : k0 + 1 + sub.length = (k0 + sub.length) + 1 := by omega
              rw [this]
              simp

theorem pyFind_isSome (s sub : List Char) (h : ∃ u v, s = u ++ sub ++ v) :
    (pyFind s sub).isSome := by
  induction s with
  | nil =>
    obtain ⟨u, v, huv⟩ := h
    have : sub = [] := by
      cases u <;> cases sub <;> simp_all
    simp [pyFind, this]
  | cons c rest ih =>
    obtain ⟨u, v, huv⟩ := h
    by_cases hp : sub.isPrefixOf (c :: rest)
    · simp [pyFind, hp]
    · cases u with
      | nil =>
        exfalso
        apply hp
        rw [List.isPrefixOf_iff_prefix]
        exact ⟨v, by simpa using huv.symm⟩
      | cons c0 u0 =>
        simp only [List.cons_append, List.cons.injEq] at huv
        have := ih ⟨u0, v, huv.2⟩
        simp only [pyFind, if_neg hp]
        cases hpf : pyFind rest sub with
        | none => rw [hpf] at this; simp at this
        | some k => simp

/-! ### Shape of a found brace group -/

theorem lazyEnd_shape (s : List Char) (i : Nat) :
    ∀ fuel t j, 1 ≤ t → lazyEnd s i fuel t = some j →
      i + 3 ≤ j ∧ j < s.length ∧ s.get? j = some rbChar ∧
        ∃ c1, s.get? (j - 1) = some c1 ∧ c1 ≠ bsChar := by
  intro fuel
  induction fuel with
  | zero => intro t j _ h; cases h
  | succ fuel ih =>
    intro t j ht h
    simp only [lazyEnd] at h
    split at h
    · cases h
    · split at h
      · cases h
      · split at h
        · rename_i c hget c1 c2 h1 h2
          split at h
          · rename_i hcond
            cases h
            obtain ⟨hlt, _⟩ := List.get?_eq_some.mp h2
            refine ⟨by omega, hlt, ?_, c1, ?_, hcond.1⟩
            · rw [h2, hcond.2]
            · have he : i + t + 2 - 1 = i + t + 1 := by omega
              rw [he, h1]
          · exact ih (t + 1) j (by omega) h
        · exact ih (t + 1) j (by omega) h

theorem matchGroupAt_shape (s : List Char) (i j : Nat)
    (h : matchGroupAt s i = some j) :
    s.get? i = some lbChar ∧ i + 3 ≤ j ∧ j < s.length ∧
      s.get? j = some rbChar ∧ ∃ c1, s.get? (j - 1) = some c1 ∧ c1 ≠ bsChar := by
  simp only [matchGroupAt] at h
  split at h
  · rename_i hi
    exact ⟨hi, lazyEnd_shape s i (s.length + 1) 1 j (by omega) h⟩
  · cases h

theorem greedyDown_shape (s : List Char) (p : Nat) :
    ∀ d i j, greedyDown s p d = some (i, j) → matchGroupAt s i = some j := by
  intro d
  induction d with
  | zero =>
    intro i j h
    simp only [greedyDown] at h
    cases hm : matchGroupAt s p with
    | none => rw [hm] at h; cases h
    | some j0 =>
      rw [hm] at h
      simp only [Option.map_some'] at h
      cases h
      exact hm
  | succ d ih =>
    intro i j h
    simp only [greedyDown] at h
    cases hm : matchGroupAt s (p + (d + 1)) with
    | none => rw [hm] at h; exact ih i j h
    | some j0 =>
      rw [hm] at h
      cases h
      exact hm

theorem searchFrom_shape (s : List Char) :
    ∀ fuel p i j, searchFrom s fuel p = some (i, j) →
      matchGroupAt s i = some j := by
  intro fuel
  induction fuel with
  | zero => intro p i j h; cases h
  | succ fuel ih =>
    intro p i j h
    simp only [searchFrom] at h
    split at h
    · cases h
    · cases hg : greedyDown s p (nlRun s p) with
      | none => rw [hg] at h; exact ih (p + 1) i j h
      | some r =>
        rw [hg] at h
        cases h
        exact greedyDown_shape s p (nlRun s p) i j (by rw [hg])

theorem findGroup_shape (s : List Char) (i j : Nat)
    (h : findGroup s = some (i, j)) :
    s.get? i = some lbChar ∧ i + 3 ≤ j ∧ j < s.length ∧
      s.get? j = some rbChar ∧ ∃ c1, s.get? (j - 1) = some c1 ∧ c1 ≠ bsChar :=
  matchGroupAt_shape s i j (searchFrom_shape s (s.length + 1) 0 i j h)

/-! ### Decomposing a string around the found group -/

theorem getLastD_append_of_ne_nil (a b : List Char) (d : Char) (hb : b ≠ []) :
    (a ++ b).getLastD d = b.getLastD d := by
  rw [List.getLastD_eq_getLast?, List.getLastD_eq_getLast?,
    List.getLast?_append_of_ne_nil a hb]

theorem getLastD_mem (u : List Char) (d : Char) (hu : u ≠ []) :
    u.getLastD d ∈ u := by
  induction u generalizing d with
  | nil => exact absurd rfl hu
  | cons c u ih =>
    rw [List.getLastD_cons]
    cases hu2 : u with
    | nil => simp [List.getLastD]
    | cons c2 u2 =>
      right
      rw [← hu2]
      exact ih c (by simp [hu2])

theorem findGroup_sub_length (s : List Char) (i j : Nat)
    (h : findGroup s = some (i, j)) :
    ((s.drop i).take (j + 1 - i)).length = j + 1 - i := by
  obtain ⟨_, hij, hj, _⟩ := findGroup_shape s i j h
  simp only [List.length_take, List.length_drop]
  omega

theorem findGroup_s_decomp (s : List Char) (i j : Nat)
    (h : findGroup s = some (i, j)) :
    s = s.take i ++ (s.drop i).take (j + 1 - i) ++ s.drop (j + 1) := by
  obtain ⟨_, hij, hj, _⟩ := findGroup_shape s i j h
  have h1 : ((s.drop i).take (j + 1 - i)) ++ ((s.drop i).drop (j + 1 - i)) = s.drop i :=
    List.take_append_drop _ _
  have h2 : (s.drop i).drop (j + 1 - i) = s.drop (j + 1) := by
    rw [List.drop_drop]
    have he : i + (j + 1 - i) = j + 1 := by omega
    rw [he]
  rw [List.append_assoc, ← h2, h1, List.take_append_drop]

theorem findGroup_sub_head (s : List Char) (i j : Nat)
    (h : findGroup s = some (i, j)) :
    ∃ b, (s.drop i).take (j + 1 - i) = lbChar :: b := by
  obtain ⟨hi, hij, hj, _⟩ := findGroup_shape s i j h
  have hget : ((s.drop i).take (j + 1 - i)).get? 0 = some lbChar := by
    rw [List.get?_take (by omega), List.get?_drop]
    simpa using hi
  cases hsub : (s.drop i).take (j + 1 - i) with
  | nil => rw [hsub] at hget; cases hget
  | cons c b =>
    rw [hsub] at hget
    simp only [List.get?] at hget
    cases hget
    exact ⟨b, rfl⟩

theorem findGroup_sub_last2 (s : List Char) (i j : Nat)
    (h : findGroup s = some (i, j)) :
    ∃ q c1, (s.drop i).take (j + 1 - i) = q ++ [c1, rbChar] ∧ c1 ≠ bsChar := by
  obtain ⟨hi, hij, hj, hrb, c1, hc1, hbs⟩ := findGroup_shape s i j h
  set sub := (s.drop i).take (j + 1 - i) with hsubdef
  have hL : sub.length = j + 1 - i := findGroup_sub_length s i j h
  have hd2 : (sub.drop (sub.length - 2)).length = 2 := by
    simp only [List.length_drop]
    omega
  obtain ⟨x, t1, hxt⟩ := List.exists_of_length_succ _ hd2
  have ht1 : t1.length = 1 := by
    have := congrArg List.length hxt
    simp at this
    omega
  obtain ⟨y, t2, hyt⟩ := List.exists_of_length_succ _ ht1
  have ht2 : t2 = [] := by
    cases t2 with
    | nil => rfl
    | cons z t3 =>
      rw [hyt] at ht1
      simp at ht1
  have hget0 : (sub.drop (sub.length - 2)).get? 0 = some c1 := by
    rw [List.get?_drop]
    have he : sub.length - 2 + 0 = j - 1 - i := by omega
    rw [he, hsubdef, List.get?_take (by omega), List.get?_drop]
    have he2 : i + (j - 1 - i) = j - 1 := by omega
    rw [he2]
    exact hc1
  have hget1 : (sub.drop (sub.length - 2)).get? 1 = some rbChar := by
    rw [List.get?_drop]
    have he : sub.length - 2 + 1 = j - i := by omega
    rw [he, hsubdef, List.get?_take (by omega), List.get?_drop]
    have he2 : i + (j - i) = j := by omega
    rw [he2]
    exact hrb
  rw [hxt] at hget0 hget1
  rw [hyt, ht2] at hget1
  simp only [List.get?] at hget0 hget1
  cases hget0
  rw [hyt, ht2] at hxt
  cases hget1
  refine ⟨sub.take (sub.length - 2), c1, ?_, hbs⟩
  conv_lhs => rw [← List.take_append_drop (sub.length - 2) sub]
  rw [hxt]

/-- The string decomposes around the first occurrence of the captured group,
exactly as the slicing `s[:ob] ... s[cb+1:]` of the source does. -/
theorem step_decomp (s : List Char) (i j : Nat)
    (h : findGroup s = some (i, j)) :
    s = s.take ((pyFind s ((s.drop i).take (j + 1 - i))).getD 0) ++
        (s.drop i).take (j + 1 - i) ++
        s.drop ((pyFind s ((s.drop i).take (j + 1 - i))).getD 0 +
          ((s.drop i).take (j + 1 - i)).length) := by
  set sub := (s.drop i).take (j + 1 - i) with hsubdef
  have hocc : ∃ u v, s = u ++ sub ++ v :=
    ⟨s.take i, s.drop (j + 1), findGroup_s_decomp s i j h⟩
  have hsome := pyFind_isSome s sub hocc
  cases hpf : pyFind s sub with
  | none => rw [hpf] at hsome; cases hsome
  | some k =>
    have := pyFind_spec s sub k hpf
    simpa using this

/-! ### The termination measure decreases -/

theorem escRB_getLastD_rb (q0 : List Char) (c1 : Char) (d : Char) :
    (escRB (q0 ++ [c1, rbChar])).getLastD d = rbChar := by
  have h1 : escRB (q0 ++ [c1, rbChar]) = escRB (q0 ++ [c1]) ++ [bsChar, rbChar] := by
    rw [show q0 ++ [c1, rbChar] = (q0 ++ [c1]) ++ [rbChar] by simp, escRB_append]
    rfl
  rw [h1, getLastD_append_of_ne_nil _ _ _ (by simp)]
  rfl

theorem escRB_ne_nil (q0 : List Char) (c1 : Char) :
    escRB (q0 ++ [c1, rbChar]) ≠ [] := by
  have h1 : escRB (q0 ++ [c1, rbChar]) = escRB (q0 ++ [c1]) ++ [bsChar, rbChar] := by
    rw [show q0 ++ [c1, rbChar] = (q0 ++ [c1]) ++ [rbChar] by simp, escRB_append]
    rfl
  rw [h1]
  simp

/-- The count of a group ending in a non-backslash then a closing brace is
at least one. -/
theorem ucAux_sub_pos (q0 : List Char) (c1 : Char) (hbs : c1 ≠ bsChar)
    (p : Char) : 1 ≤ ucAux p (q0 ++ [c1, rbChar]) := by
  rw [ucAux_append]
  have : ucAux (q0.getLastD p) [c1, rbChar] =
      (if c1 = rbChar ∧ q0.getLastD p ≠ bsChar then 1 else 0) +
        (if rbChar = rbChar ∧ c1 ≠ bsChar then 1 else 0) := by
    simp [ucAux]
  rw [this]
  have : (if rbChar = rbChar ∧ c1 ≠ bsChar then 1 else 0) = 1 := by
    simp [hbs]
  omega

/-- Escape branch: replacing the group by its escaped form strictly
decreases the unescaped-closing-brace count. -/
theorem ucount_escape_lt (pre suf q0 : List Char) (c1 : Char)
    (hbs : c1 ≠ bsChar) :
    ucount (pre ++ escRB (q0 ++ [c1, rbChar]) ++ suf) <
      ucount (pre ++ (q0 ++ [c1, rbChar]) ++ suf) := by
  unfold ucount
  rw [List.append_assoc, List.append_assoc,
    ucAux_append pre _ lbChar, ucAux_append pre _ lbChar,
    ucAux_append (escRB (q0 ++ [c1, rbChar])) suf _,
    ucAux_append (q0 ++ [c1, rbChar]) suf _]
  have hz : ucAux (pre.getLastD lbChar) (escRB (q0 ++ [c1, rbChar])) = 0 :=
    ucAux_escRB _ _
  have hle : (escRB (q0 ++ [c1, rbChar])).getLastD (pre.getLastD lbChar) = rbChar :=
    escRB_getLastD_rb _ _ _
  have hls : (q0 ++ [c1, rbChar]).getLastD (pre.getLastD lbChar) = rbChar := by
    rw [getLastD_append_of_ne_nil _ _ _ (by simp)]
    rfl
  rw [hz, hle, hls]
  have := ucAux_sub_pos q0 c1 hbs (pre.getLastD lbChar)
  omega

/-- Comma branch: substituting a piece of the group (which sits inside the
group after a non-backslash character) never increases the count. -/
theorem ucount_subst_le (pre suf sub m u v : List Char)
    (hsub : sub = u ++ m ++ v) (hu : u ≠ [])
    (hub : u.getLastD lbChar ≠ bsChar)
    (hlast : sub.getLastD lbChar = rbChar) :
    ucount (pre ++ m ++ suf) ≤ ucount (pre ++ sub ++ suf) := by
  unfold ucount
  rw [List.append_assoc, List.append_assoc,
    ucAux_append pre _ lbChar, ucAux_append pre _ lbChar,
    ucAux_append m suf _, ucAux_append sub suf _]
  have hm_le : ucAux (pre.getLastD lbChar) m ≤ ucAux (pre.getLastD lbChar) sub := by
    rw [hsub]
    apply ucAux_infix_le
    rw [List.getLastD_eq_getLast?] at hub ⊢
    cases hgl : u.getLast? with
    | none => exact absurd (List.getLast?_eq_none_iff.mp hgl) hu
    | some c =>
      rw [hgl] at hub
      simp only [Option.getD_some] at hub ⊢
      exact hub
  have hsub_ne : sub ≠ [] := by
    rw [hsub]; intro hc
    cases u <;> simp_all
  have hsuf_le : ucAux (m.getLastD (pre.getLastD lbChar)) suf ≤
      ucAux (sub.getLastD (pre.getLastD lbChar)) suf := by
    have : sub.getLastD (pre.getLastD lbChar) = rbChar := by
      rw [List.getLastD_eq_getLast?] at hlast ⊢
      cases hgl : sub.getLast? with
      | none => exact absurd (List.getLast?_eq_none_iff.mp hgl) hsub_ne
      | some c =>
        rw [hgl] at hlast
        simp only [Option.getD_some] at hlast ⊢
        exact hlast
    rw [this]
    exact ucAux_prev_le _ _ _ (by decide)
  omega

/-! ### Structure of `pystrip` and `pysplit` -/

theorem length_dropWhile_le (p : Char → Bool) (l : List Char) :
    (l.dropWhile p).length ≤ l.length := by
  induction l with
  | nil => simp
  | cons c rest ih =>
    rw [List.dropWhile_cons]
    split
    · simp; omega
    · simp

theorem pystrip_decomp (l : List Char) :
    ∃ u v, l = u ++ pystrip l ++ v ∧ (∀ c ∈ u, isBrace c) ∧
      (∀ c ∈ v, isBrace c) ∧ (l.head? = some lbChar → u ≠ []) := by
  refine ⟨l.takeWhile isBrace,
    (((l.dropWhile isBrace).reverse.takeWhile isBrace)).reverse, ?_, ?_, ?_, ?_⟩
  · have h2 : l.dropWhile isBrace =
        pystrip l ++ ((l.dropWhile isBrace).reverse.takeWhile isBrace).reverse := by
      calc l.dropWhile isBrace
          = ((l.dropWhile isBrace).reverse).reverse := (List.reverse_reverse _).symm
        _ = (List.takeWhile isBrace (l.dropWhile isBrace).reverse ++
              List.dropWhile isBrace (l.dropWhile isBrace).reverse).reverse := by
            rw [List.takeWhile_append_dropWhile]
        _ = (List.dropWhile isBrace (l.dropWhile isBrace).reverse).reverse ++
              (List.takeWhile isBrace (l.dropWhile isBrace).reverse).reverse := by
            rw [List.reverse_append]
        _ = pystrip l ++ ((l.dropWhile isBrace).reverse.takeWhile isBrace).reverse := rfl
    conv_lhs => rw [← List.takeWhile_append_dropWhile isBrace l, h2]
    rw [List.append_assoc]
  · intro c hc
    exact List.mem_takeWhile_imp hc
  · intro c hc
    rw [List.mem_reverse] at hc
    exact List.mem_takeWhile_imp hc
  · intro hhead
    cases l with
    | nil => cases hhead
    | cons c b =>
      simp only [List.head?_cons] at hhead
      cases hhead
      rw [List.takeWhile_cons, if_pos (by decide)]
      simp

theorem pystrip_length (sub : List Char)
    (hh : ∃ b, sub = lbChar :: b)
    (hl : ∃ q c1, sub = q ++ [c1, rbChar] ∧ c1 ≠ bsChar)
    (hc : ',' ∈ sub) :
    (pystrip sub).length + 2 ≤ sub.length := by
  obtain ⟨b, hb⟩ := hh
  obtain ⟨q, c1, hq, _⟩ := hl
  have hm1 : sub.dropWhile isBrace = b.dropWhile isBrace := by
    rw [hb, List.dropWhile_cons, if_pos (by decide)]
  set m := sub.dropWhile isBrace with hmdef
  have hmlen : m.length ≤ b.length := by
    rw [hm1]
    induction b with
    | nil => simp
    | cons c bb ih =>
      rw [List.dropWhile_cons]
      split
      · have := length_dropWhile_le isBrace bb
        simp
        omega
      · simp
  have hcm : ',' ∈ m := by
    have hsplit : sub.takeWhile isBrace ++ m = sub :=
      List.takeWhile_append_dropWhile _ _
    rcases (List.mem_append.mp (hsplit ▸ hc)) with h1 | h1
    · exact absurd (List.mem_takeWhile_imp h1) (by decide)
    · exact h1
  have hmne : m ≠ [] := by
    intro h0
    rw [h0] at hcm
    cases hcm
  have hmlast : m.getLast? = some rbChar := by
    have hsuf : m <:+ sub := List.dropWhile_suffix isBrace
    obtain ⟨w, hw⟩ := hsuf
    have hsl : sub.getLast? = some rbChar := by
      rw [hq, show q ++ [c1, rbChar] = (q ++ [c1]) ++ [rbChar] by simp,
        List.getLast?_concat]
    calc m.getLast? = (w ++ m).getLast? :=
          (List.getLast?_append_of_ne_nil w hmne).symm
      _ = sub.getLast? := by rw [hw]
      _ = some rbChar := hsl
  have hrev : ∃ t, m.reverse = rbChar :: t := by
    cases hmr : m.reverse with
    | nil =>
      exfalso
      apply hmne
      have := congrArg List.reverse hmr
      simpa using this
    | cons c t =>
      have : m.reverse.head? = some c := by rw [hmr]; rfl
      rw [List.head?_reverse] at this
      rw [hmlast] at this
      cases this
      exact ⟨t, rfl⟩
  obtain ⟨t, ht⟩ := hrev
  have hdw : (m.reverse.dropWhile isBrace).length ≤ t.length := by
    rw [ht, List.dropWhile_cons, if_pos (by decide)]
    exact length_dropWhile_le isBrace t
  have hplen : (pystrip sub).length = (m.reverse.dropWhile isBrace).length := by
    unfold pystrip
    rw [← hmdef, List.length_reverse]
  have htlen : t.length + 1 = m.length := by
    have := congrArg List.length ht
    simp at this
    omega
  have hblen : b.length + 1 = sub.length := by
    rw [hb]; simp
  omega

theorem pysplit_ne_nil (l : List Char) : pysplit l ≠ [] := by
  cases l with
  | nil => simp [pysplit]
  | cons c rest =>
    simp only [pysplit]
    split
    · simp
    · split
      · simp
      · simp

theorem pysplit_no_comma (l : List Char) :
    ∀ pat ∈ pysplit l, ',' ∉ pat := by
  induction l with
  | nil =>
    intro pat hp
    simp [pysplit] at hp
    simp [hp]
  | cons c rest ih =>
    intro pat hp
    simp only [pysplit] at hp
    by_cases hcc : c = ','
    · rw [if_pos hcc] at hp
      cases hp with
      | head => simp
      | tail _ hm => exact ih pat hm
    · rw [if_neg hcc] at hp
      cases hps : pysplit rest with
      | nil => exact absurd hps (pysplit_ne_nil rest)
      | cons h t =>
        rw [hps] at hp
        cases hp with
        | head =>
          have hh : ',' ∉ h := ih h (by rw [hps]; exact List.mem_cons_self h t)
          intro hmem
          cases hmem with
          | head => exact hcc rfl
          | tail _ hm => exact hh hm
        | tail _ hm =>
          exact ih pat (by rw [hps]; exact List.mem_cons_of_mem h hm)

theorem pysplit_head_decomp (l : List Char) :
    ∃ v, l = (pysplit l).headD [] ++ v := by
  induction l with
  | nil => exact ⟨[], rfl⟩
  | cons c rest ih =>
    simp only [pysplit]
    by_cases hcc : c = ','
    · rw [if_pos hcc]
      exact ⟨c :: rest, rfl⟩
    · rw [if_neg hcc]
      cases hps : pysplit rest with
      | nil => exact absurd hps (pysplit_ne_nil rest)
      | cons h t =>
        obtain ⟨v, hv⟩ := ih
        rw [hps] at hv
        simp only [List.headD_cons] at hv ⊢
        exact ⟨v, by rw [List.cons_append, ← hv]⟩

theorem pysplit_tail_decomp (l : List Char) :
    ∀ pat ∈ (pysplit l).tail, ∃ u v, l = u ++ [','] ++ pat ++ v := by
  induction l with
  | nil =>
    intro pat hp
    simp [pysplit] at hp
  | cons c rest ih =>
    intro pat hp
    simp only [pysplit] at hp
    by_cases hcc : c = ','
    · rw [if_pos hcc] at hp
      simp only [List.tail_cons] at hp
      cases hps : pysplit rest with
      | nil => exact absurd hps (pysplit_ne_nil rest)
      | cons h t =>
        rw [hps] at hp
        cases hp with
        | head =>
          obtain ⟨v, hv⟩ := pysplit_head_decomp rest
          rw [hps] at hv
          simp only [List.headD_cons] at hv
          refine ⟨[], v, ?_⟩
          rw [hcc, hv]
          simp
        | tail _ hm =>
          obtain ⟨u, v, huv⟩ := ih pat (by rw [hps]; exact hm)
          refine ⟨c :: u, v, ?_⟩
          rw [huv]
          simp
    · rw [if_neg hcc] at hp
      cases hps : pysplit rest with
      | nil => exact absurd hps (pysplit_ne_nil rest)
      | cons h t =>
        rw [hps] at hp
        simp only [List.tail_cons] at hp
        obtain ⟨u, v, huv⟩ := ih pat (by rw [hps]; simpa using hp)
        refine ⟨c :: u, v, ?_⟩
        rw [huv]
        simp

/-! ### The measure decreases across one `expandF` recursion step -/

theorem isBrace_ne_bs (c : Char) (h : isBrace c) : c ≠ bsChar := by
  rcases (by simpa [isBrace] using h : c = lbChar ∨ c = rbChar) with h1 | h1 <;>
    subst h1 <;> decide

theorem step_escape_measure (s : List Char) (i j : Nat)
    (h : findGroup s = some (i, j)) :
    ucount (s.take ((pyFind s ((s.drop i).take (j + 1 - i))).getD 0) ++
        escRB ((s.drop i).take (j + 1 - i)) ++
        s.drop ((pyFind s ((s.drop i).take (j + 1 - i))).getD 0 +
          ((s.drop i).take (j + 1 - i)).length)) < ucount s := by
  obtain ⟨q, c1, hq, hbs⟩ := findGroup_sub_last2 s i j h
  have hdec := step_decomp s i j h
  conv_rhs => rw [hdec]
  rw [hq]
  exact ucount_escape_lt _ _ q c1 hbs

theorem step_comma_measure (s : List Char) (i j : Nat)
    (h : findGroup s = some (i, j))
    (hcomma : ',' ∈ (s.drop i).take (j + 1 - i))
    (pat : List Char)
    (hpat : pat ∈ pysplit (pystrip ((s.drop i).take (j + 1 - i)))) :
    ucount (s.take ((pyFind s ((s.drop i).take (j + 1 - i))).getD 0) ++
        pat ++
        s.drop ((pyFind s ((s.drop i).take (j + 1 - i))).getD 0 +
          ((s.drop i).take (j + 1 - i)).length)) ≤ ucount s ∧
      (s.take ((pyFind s ((s.drop i).take (j + 1 - i))).getD 0) ++
        pat ++
        s.drop ((pyFind s ((s.drop i).take (j + 1 - i))).getD 0 +
          ((s.drop i).take (j + 1 - i)).length)).length < s.length := by
  set sub := (s.drop i).take (j + 1 - i) with hsubdef
  set pre := s.take ((pyFind s sub).getD 0) with hpredef
  set suf := s.drop ((pyFind s sub).getD 0 + sub.length) with hsufdef
  have hdec : s = pre ++ sub ++ suf := step_decomp s i j h
  obtain ⟨q, c1, hq, hbs⟩ := findGroup_sub_last2 s i j h
  obtain ⟨bb, hhead⟩ := findGroup_sub_head s i j h
  rw [← hsubdef] at hq hhead
  have hlast : sub.getLastD lbChar = rbChar := by
    rw [hq, getLastD_append_of_ne_nil _ _ _ (by simp)]
    rfl
  obtain ⟨u0, v0, hsv, hu0, hv0, hu0ne⟩ := pystrip_decomp sub
  have hu0ne2 : u0 ≠ [] := hu0ne (by rw [hhead]; rfl)
  have hccontent : ',' ∈ pystrip sub := by
    rcases List.mem_append.mp (hsv ▸ hcomma) with h1 | h1
    · rcases List.mem_append.mp h1 with h2 | h2
      · exact absurd (hu0 _ h2) (by decide)
      · exact h2
    · exact absurd (hv0 _ h1) (by decide)
  have hnocomma : ',' ∉ pat := pysplit_no_comma _ pat hpat
  -- decompose sub as U ++ pat ++ V with U nonempty ending in a non-backslash
  have hdecomp : ∃ uu vv, sub = uu ++ pat ++ vv ∧ uu ≠ [] ∧
      uu.getLastD lbChar ≠ bsChar := by
    cases hps : pysplit (pystrip sub) with
    | nil => exact absurd hps (pysplit_ne_nil _)
    | cons hd tl =>
      rw [hps] at hpat
      cases hpat with
      | head =>
        obtain ⟨w, hw⟩ := pysplit_head_decomp (pystrip sub)
        rw [hps] at hw
        simp only [List.headD_cons] at hw
        refine ⟨u0, w ++ v0, ?_, hu0ne2, ?_⟩
        · rw [hsv, hw]
          simp
        · have := getLastD_mem u0 lbChar hu0ne2
          exact isBrace_ne_bs _ (hu0 _ this)
      | tail _ hm =>
        obtain ⟨u2, v2, huv⟩ := pysplit_tail_decomp (pystrip sub) pat
          (by rw [hps]; simpa using hm)
        refine ⟨u0 ++ u2 ++ [','], v2 ++ v0, ?_, by simp, ?_⟩
        · rw [hsv, huv]
          simp
        · rw [getLastD_append_of_ne_nil _ _ _ (by simp)]
          decide
  obtain ⟨uu, vv, huv, huune, huubs⟩ := hdecomp
  constructor
  · conv_rhs => rw [hdec]
    exact ucount_subst_le pre suf sub pat uu vv huv huune huubs hlast
  · -- length strictly decreases
    have hplen : pat.length + 1 ≤ (pystrip sub).length := by
      cases hps : pysplit (pystrip sub) with
      | nil => exact absurd hps (pysplit_ne_nil _)
      | cons hd tl =>
        rw [hps] at hpat
        cases hpat with
        | head =>
          obtain ⟨w, hw⟩ := pysplit_head_decomp (pystrip sub)
          rw [hps] at hw
          simp only [List.headD_cons] at hw
          have hwne : w ≠ [] := by
            intro h0
            rw [h0, List.append_nil] at hw
            exact hnocomma (hw ▸ hccontent)
          have := congrArg List.length hw
          simp at this
          cases hwcase : w with
          | nil => exact absurd hwcase hwne
          | cons wc wr =>
            rw [hwcase] at this
            simp at this
            omega
        | tail _ hm =>
          obtain ⟨u2, v2, huv2⟩ := pysplit_tail_decomp (pystrip sub) pat
            (by rw [hps]; simpa using hm)
          have := congrArg List.length huv2
          simp at this
          omega
    have hstriplen : (pystrip sub).length + 2 ≤ sub.length :=
      pystrip_length sub ⟨bb, hhead⟩ ⟨q, c1, hq, hbs⟩ hcomma
    have h1 := congrArg List.length hdec
    simp only [List.length_append] at h1 ⊢
    omega

/-! ### Fuel monotonicity and sufficiency of `expandF` -/

theorem combineOpt_isSome_iff (f : List Char → Option (List (List Char)))
    (pieces : List (List Char)) :
    (combineOpt f pieces).isSome ↔ ∀ pat ∈ pieces, (f pat).isSome := by
  induction pieces with
  | nil => simp [combineOpt]
  | cons pat rest ih =>
    simp only [combineOpt]
    cases hf : f pat with
    | none => simp [hf]
    | some r =>
      cases hc : combineOpt f rest with
      | none =>
        rw [hc] at ih
        simp only [Option.isSome_none, Bool.false_eq_true, false_iff] at ih
        simp only [Option.isSome_none, Bool.false_eq_true, false_iff]
        push_neg at ih ⊢
        obtain ⟨pat2, hmem, hns⟩ := ih
        exact ⟨pat2, List.mem_cons_of_mem _ hmem, hns⟩
      | some rs =>
        rw [hc] at ih
        simp only [Option.isSome_some, true_iff] at ih
        simp only [Option.isSome_some, true_iff]
        intro p hp
        cases hp with
        | head => simp [hf]
        | tail _ hm => exact ih p hm

theorem combineOpt_congr (f g : List Char → Option (List (List Char)))
    (pieces : List (List Char)) (h : ∀ pat ∈ pieces, f pat = g pat) :
    combineOpt f pieces = combineOpt g pieces := by
  induction pieces with
  | nil => rfl
  | cons pat rest ih =>
    simp only [combineOpt]
    rw [h pat (List.mem_cons_self _ _), ih (fun p hp => h p (List.mem_cons_of_mem _ hp))]

theorem escRB_length_le (l : List Char) : (escRB l).length ≤ 2 * l.length := by
  induction l with
  | nil => simp [escRB]
  | cons c rest ih =>
    by_cases hc : c = rbChar
    · have : escRB (c :: rest) = bsChar :: rbChar :: escRB rest := by
        simp [escRB, hc]
      rw [this]
      simp only [List.length_cons]
      omega
    · have : escRB (c :: rest) = c :: escRB rest := by
        simp [escRB, hc]
      rw [this]
      simp only [List.length_cons]
      omega

theorem findGroup_ucount_pos (s : List Char) (i j : Nat)
    (h : findGroup s = some (i, j)) : 1 ≤ ucount s := by
  obtain ⟨q, c1, hq, hbs⟩ := findGroup_sub_last2 s i j h
  have hdec := step_decomp s i j h
  rw [hq] at hdec
  conv_rhs => rw [hdec]
  unfold ucount
  rw [List.append_assoc, ucAux_append]
  rw [ucAux_append (q ++ [c1, rbChar]) _ _]
  have := ucAux_sub_pos q c1 hbs
    ((s.take ((pyFind s (q ++ [c1, rbChar])).getD 0)).getLastD lbChar)
  omega

theorem expandF_mono : ∀ f g s, f ≤ g → (expandF f s).isSome →
    expandF g s = expandF f s := by
  intro f
  induction f with
  | zero =>
    intro g s _ hs
    simp [expandF] at hs
  | succ f ih =>
    intro g s hfg hs
    cases g with
    | zero => omega
    | succ g =>
      have hfg2 : f ≤ g := by omega
      simp only [expandF] at hs ⊢
      cases hfind : findGroup s with
      | none => rfl
      | some ij =>
        obtain ⟨i, j⟩ := ij
        rw [hfind] at hs
        dsimp only at hs ⊢
        by_cases hcomma : ',' ∈ (s.drop i).take (j + 1 - i)
        · simp only [if_pos hcomma] at hs ⊢
          cases hcomb : combineOpt
              (fun pat => expandF f
                (s.take ((pyFind s ((s.drop i).take (j + 1 - i))).getD 0) ++ pat ++
                  s.drop ((pyFind s ((s.drop i).take (j + 1 - i))).getD 0 +
                    ((s.drop i).take (j + 1 - i)).length - 1 + 1)))
              (pysplit (pystrip ((s.drop i).take (j + 1 - i)))) with
          | none => rw [hcomb] at hs; simp at hs
          | some rs =>
            have hsome : ∀ pat ∈ pysplit (pystrip ((s.drop i).take (j + 1 - i))),
                (expandF f
                  (s.take ((pyFind s ((s.drop i).take (j + 1 - i))).getD 0) ++ pat ++
                    s.drop ((pyFind s ((s.drop i).take (j + 1 - i))).getD 0 +
                      ((s.drop i).take (j + 1 - i)).length - 1 + 1))).isSome := by
              rw [← combineOpt_isSome_iff]
              rw [hcomb]
              rfl
            have hcongr := combineOpt_congr
              (fun pat => expandF g
                (s.take ((pyFind s ((s.drop i).take (j + 1 - i))).getD 0) ++ pat ++
                  s.drop ((pyFind s ((s.drop i).take (j + 1 - i))).getD 0 +
                    ((s.drop i).take (j + 1 - i)).length - 1 + 1)))
              (fun pat => expandF f
                (s.take ((pyFind s ((s.drop i).take (j + 1 - i))).getD 0) ++ pat ++
                  s.drop ((pyFind s ((s.drop i).take (j + 1 - i))).getD 0 +
                    ((s.drop i).take (j + 1 - i)).length - 1 + 1)))
              (pysplit (pystrip ((s.drop i).take (j + 1 - i))))
              (fun pat hp => ih g _ hfg2 (hsome pat hp))
            rw [hcongr, hcomb]
        · simp only [if_neg hcomma] at hs ⊢
          cases hrec : expandF f
              (s.take ((pyFind s ((s.drop i).take (j + 1 - i))).getD 0) ++
                escRB ((s.drop i).take (j + 1 - i)) ++
                s.drop ((pyFind s ((s.drop i).take (j + 1 - i))).getD 0 +
                  ((s.drop i).take (j + 1 - i)).length - 1 + 1)) with
          | none => rw [hrec] at hs; simp at hs
          | some rs =>
            rw [ih g _ hfg2 (by rw [hrec]; rfl), hrec]

theorem expandFuel_pos (s : List Char) : 1 ≤ expandFuel s := by
  unfold expandFuel
  have h2 : 0 < 3 ^ ucount s := pow_pos (by norm_num) _
  have := Nat.mul_le_mul (show 1 ≤ s.length + 2 by omega) h2
  omega

theorem expandFuel_succ_le_comma (s s' : List Char)
    (hc : ucount s' ≤ ucount s) (hl : s'.length < s.length) :
    expandFuel s' + 1 ≤ expandFuel s := by
  unfold expandFuel
  have h3 : 3 ^ ucount s' ≤ 3 ^ ucount s :=
    Nat.pow_le_pow_right (by norm_num) hc
  have h1 : (s'.length + 2) * 3 ^ ucount s' ≤ (s.length + 1) * 3 ^ ucount s :=
    Nat.mul_le_mul (by omega) h3
  have h2 : 0 < 3 ^ ucount s := pow_pos (by norm_num) _
  have he : (s.length + 2) * 3 ^ ucount s =
      (s.length + 1) * 3 ^ ucount s + 3 ^ ucount s := by ring
  omega

theorem expandFuel_succ_le_escape (s s' : List Char)
    (hc : ucount s' < ucount s) (hl : s'.length ≤ 2 * s.length) :
    expandFuel s' + 1 ≤ expandFuel s := by
  unfold expandFuel
  obtain ⟨c0, hc0⟩ : ∃ c0, ucount s = c0 + 1 := ⟨ucount s - 1, by omega⟩
  have h3 : 3 ^ ucount s' ≤ 3 ^ c0 :=
    Nat.pow_le_pow_right (by norm_num) (by omega)
  have h1 : (s'.length + 2) * 3 ^ ucount s' ≤ (2 * s.length + 2) * 3 ^ c0 :=
    Nat.mul_le_mul (by omega) h3
  have h2 : 0 < 3 ^ c0 := pow_pos (by norm_num) _
  have h4 : 1 * 1 ≤ (s.length + 4) * 3 ^ c0 :=
    Nat.mul_le_mul (by omega) h2
  have he : (s.length + 2) * 3 ^ (c0 + 1) =
      (2 * s.length + 2) * 3 ^ c0 + (s.length + 4) * 3 ^ c0 := by ring
  rw [hc0, he]
  omega

theorem step_escape_length (s : List Char) (i j : Nat)
    (h : findGroup s = some (i, j)) :
    (s.take ((pyFind s ((s.drop i).take (j + 1 - i))).getD 0) ++
        escRB ((s.drop i).take (j + 1 - i)) ++
        s.drop ((pyFind s ((s.drop i).take (j + 1 - i))).getD 0 +
          ((s.drop i).take (j + 1 - i)).length)).length ≤ 2 * s.length := by
  have hdec := step_decomp s i j h
  have hesc := escRB_length_le ((s.drop i).take (j + 1 - i))
  have h1 := congrArg List.length hdec
  simp only [List.length_append] at h1 ⊢
  omega

theorem matchEraseDups_isSome (X : Option (List (List Char)))
    (h : X.isSome) :
    (match X with
      | some rs => some rs.eraseDups
      | none => none).isSome := by
  cases X with
  | none => cases h
  | some rs => rfl

theorem expandF_suff_aux :
    ∀ c l s, ucount s ≤ c → s.length ≤ l →
      (expandF (expandFuel s) s).isSome := by
  intro c
  induction c with
  | zero =>
    intro l s hc _
    obtain ⟨B, hB⟩ : ∃ B, expandFuel s = B + 1 :=
      ⟨expandFuel s - 1, by have := expandFuel_pos s; omega⟩
    rw [hB]
    simp only [expandF]
    cases hfind : findGroup s with
    | none => rfl
    | some ij =>
      obtain ⟨i, j⟩ := ij
      exact absurd (findGroup_ucount_pos s i j hfind) (by omega)
  | succ c ihc =>
    intro l
    induction l using Nat.strong_induction_on with
    | _ l ihl =>
      intro s hc hl
      obtain ⟨B, hB⟩ : ∃ B, expandFuel s = B + 1 :=
        ⟨expandFuel s - 1, by have := expandFuel_pos s; omega⟩
      rw [hB]
      simp only [expandF]
      cases hfind : findGroup s with
      | none => rfl
      | some ij =>
        obtain ⟨i, j⟩ := ij
        dsimp only
        obtain ⟨_, hij, hjlen, _⟩ := findGroup_shape s i j hfind
        have hL := findGroup_sub_length s i j hfind
        have hcb : (pyFind s ((s.drop i).take (j + 1 - i))).getD 0 +
            ((s.drop i).take (j + 1 - i)).length - 1 + 1 =
            (pyFind s ((s.drop i).take (j + 1 - i))).getD 0 +
              ((s.drop i).take (j + 1 - i)).length := by
          rw [hL]
          omega
        simp only [hcb]
        by_cases hcomma : ',' ∈ (s.drop i).take (j + 1 - i)
        · simp only [if_pos hcomma]
          have hall : ∀ pat ∈ pysplit (pystrip ((s.drop i).take (j + 1 - i))),
              (expandF B
                (s.take ((pyFind s ((s.drop i).take (j + 1 - i))).getD 0) ++ pat ++
                  s.drop ((pyFind s ((s.drop i).take (j + 1 - i))).getD 0 +
                    ((s.drop i).take (j + 1 - i)).length))).isSome := by
            intro pat hpat
            obtain ⟨hcle, hllt⟩ := step_comma_measure s i j hfind hcomma pat hpat
            set s2 := s.take ((pyFind s ((s.drop i).take (j + 1 - i))).getD 0) ++ pat ++
              s.drop ((pyFind s ((s.drop i).take (j + 1 - i))).getD 0 +
                ((s.drop i).take (j + 1 - i)).length) with hs2
            have hsome2 : (expandF (expandFuel s2) s2).isSome :=
              ihl s2.length (by omega) s2 (by omega) (le_refl _)
            have hfle : expandFuel s2 ≤ B := by
              have := expandFuel_succ_le_comma s s2 hcle hllt
              omega
            rw [expandF_mono (expandFuel s2) B s2 hfle hsome2]
            exact hsome2
          rw [← combineOpt_isSome_iff] at hall
          exact matchEraseDups_isSome _ hall
        · simp only [if_neg hcomma]
          have huc : ucount (s.take ((pyFind s ((s.drop i).take (j + 1 - i))).getD 0) ++
              escRB ((s.drop i).take (j + 1 - i)) ++
              s.drop ((pyFind s ((s.drop i).take (j + 1 - i))).getD 0 +
                ((s.drop i).take (j + 1 - i)).length)) < ucount s :=
            step_escape_measure s i j hfind
          have hlen := step_escape_length s i j hfind
          set s2 := s.take ((pyFind s ((s.drop i).take (j + 1 - i))).getD 0) ++
            escRB ((s.drop i).take (j + 1 - i)) ++
            s.drop ((pyFind s ((s.drop i).take (j + 1 - i))).getD 0 +
              ((s.drop i).take (j + 1 - i)).length) with hs2
          have hsome2 : (expandF (expandFuel s2) s2).isSome :=
            ihc s2.length s2 (by omega) (le_refl _)
          have hfle : expandFuel s2 ≤ B := by
            have := expandFuel_succ_le_escape s s2 huc hlen
            omega
          rw [expandF_mono (expandFuel s2) B s2 hfle hsome2]
          exact matchEraseDups_isSome _ hsome2

/-- The fuel `expandFuel s` always suffices: the recursion of
`expand_braces` terminates on every input. -/
theorem expandF_expandFuel_isSome (s : List Char) :
    (expandF (expandFuel s) s).isSome :=
  expandF_suff_aux (ucount s) s.length s (le_refl _) (le_refl _)

/-- `expand_braces` agrees with the fueled computation at every sufficient
fuel. -/
theorem expand_braces_eq_expandF (s : List Char) (f : Nat)
    (hf : (expandF f s).isSome) :
    expandF f s = some (expand_braces s) := by
  unfold expand_braces
  rcases Nat.le_total f (expandFuel s) with hle | hle
  · rw [expandF_mono f (expandFuel s) s hle hf]
    cases h : expandF f s with
    | none => rw [h] at hf; cases hf
    | some rs => rfl
  · rw [expandF_mono (expandFuel s) f s hle (expandF_expandFuel_isSome s)]
    cases h : expandF (expandFuel s) s with
    | none =>
      have := expandF_expandFuel_isSome s
      rw [h] at this
      cases this
    | some rs => rfl

/-! ### Selector lemmas -/

theorem addMatches_cons (c : List Char) (rest : List (List Char))
    (sel : List (List Char)) (p : List Char) :
    addMatches (c :: rest) sel p =
      addMatches rest (if fnmatch c p ∧ ¬ c ∈ sel then sel ++ [c] else sel) p := rfl

theorem addMatches_mem (branches : List (List Char)) (p b : List Char) :
    ∀ (sel : List (List Char)), b ∈ addMatches branches sel p ↔
      b ∈ sel ∨ (b ∈ branches ∧ fnmatch b p) := by
  induction branches with
  | nil => intro sel; simp [addMatches]
  | cons c rest ih =>
    intro sel
    rw [addMatches_cons, ih]
    by_cases h1 : fnmatch c p ∧ ¬ c ∈ sel
    · rw [if_pos h1]
      constructor
      · rintro (hb | hb)
        · rcases List.mem_append.mp hb with h2 | h2
          · exact Or.inl h2
          · simp only [List.mem_singleton] at h2
            subst h2
            exact Or.inr ⟨List.mem_cons_self _ _, h1.1⟩
        · exact Or.inr ⟨List.mem_cons_of_mem _ hb.1, hb.2⟩
      · rintro (hb | ⟨hb, hm⟩)
        · exact Or.inl (List.mem_append.mpr (Or.inl hb))
        · rcases List.mem_cons.mp hb with h2 | h2
          · subst h2
            exact Or.inl (List.mem_append.mpr (Or.inr (by simp)))
          · exact Or.inr ⟨h2, hm⟩
    · rw [if_neg h1]
      push_neg at h1
      constructor
      · rintro (hb | hb)
        · exact Or.inl hb
        · exact Or.inr ⟨List.mem_cons_of_mem _ hb.1, hb.2⟩
      · rintro (hb | ⟨hb, hm⟩)
        · exact Or.inl hb
        · rcases List.mem_cons.mp hb with h2 | h2
          · subst h2
            exact Or.inl (h1 hm)
          · exact Or.inr ⟨h2, hm⟩

theorem addMatches_nodup (branches : List (List Char)) (p : List Char) :
    ∀ (sel : List (List Char)), sel.Nodup → (addMatches branches sel p).Nodup := by
  induction branches with
  | nil => intro sel h; exact h
  | cons c rest ih =>
    intro sel h
    rw [addMatches_cons]
    by_cases h1 : fnmatch c p ∧ ¬ c ∈ sel
    · rw [if_pos h1]
      apply ih
      rw [List.nodup_append]
      exact ⟨h, List.nodup_singleton c, by
        intro a ha hb
        simp only [List.mem_singleton] at hb
        subst hb
        exact h1.2 ha⟩
    · rw [if_neg h1]
      exact ih sel h

theorem addMatches_covered (branches : List (List Char)) (p : List Char) :
    ∀ (sel : List (List Char)), (∀ b ∈ branches, fnmatch b p → b ∈ sel) →
      addMatches branches sel p = sel := by
  induction branches with
  | nil => intro sel _; rfl
  | cons c rest ih =>
    intro sel hcov
    rw [addMatches_cons]
    have h1 : ¬ (fnmatch c p ∧ ¬ c ∈ sel) := by
      rintro ⟨hm, hns⟩
      exact hns (hcov c (List.mem_cons_self _ _) hm)
    rw [if_neg h1]
    exact ih sel (fun b hb hm => hcov b (List.mem_cons_of_mem _ hb) hm)

theorem foldl_addMatches_mem (branches : List (List Char)) (b : List Char) :
    ∀ (ps sel : List (List Char)), b ∈ ps.foldl (addMatches branches) sel ↔
      b ∈ sel ∨ (b ∈ branches ∧ ∃ p ∈ ps, fnmatch b p) := by
  intro ps
  induction ps with
  | nil => intro sel; simp
  | cons p ps ih =>
    intro sel
    rw [List.foldl_cons, ih, addMatches_mem]
    constructor
    · rintro ((hb | ⟨hb, hm⟩) | ⟨hb, q, hq, hm⟩)
      · exact Or.inl hb
      · exact Or.inr ⟨hb, p, List.mem_cons_self _ _, hm⟩
      · exact Or.inr ⟨hb, q, List.mem_cons_of_mem _ hq, hm⟩
    · rintro (hb | ⟨hb, q, hq, hm⟩)
      · exact Or.inl (Or.inl hb)
      · rcases List.mem_cons.mp hq with h2 | h2
        · subst h2
          exact Or.inl (Or.inr ⟨hb, hm⟩)
        · exact Or.inr ⟨hb, q, h2, hm⟩

theorem selectVars_mem (branches ps : List (List Char)) (b : List Char) :
    b ∈ selectVars branches ps ↔
      b ∈ branches ∧ ∃ p ∈ ps, fnmatch b p := by
  unfold selectVars
  rw [foldl_addMatches_mem]
  simp

theorem selectVars_nodup (branches ps : List (List Char)) :
    (selectVars branches ps).Nodup := by
  unfold selectVars
  suffices h : ∀ (ps2 sel : List (List Char)), sel.Nodup →
      (ps2.foldl (addMatches branches) sel).Nodup by
    exact h ps [] List.nodup_nil
  intro ps2
  induction ps2 with
  | nil => intro sel h; exact h
  | cons p ps2 ih =>
    intro sel h
    rw [List.foldl_cons]
    exact ih _ (addMatches_nodup branches p sel h)

theorem selectVars_dup_pattern (branches ps1 ps2 : List (List Char))
    (p : List Char) (hp : p ∈ ps1) :
    selectVars branches (ps1 ++ p :: ps2) = selectVars branches (ps1 ++ ps2) := by
  unfold selectVars
  rw [List.foldl_append, List.foldl_append, List.foldl_cons]
  congr 1
  apply addMatches_covered
  intro b hb hm
  rw [foldl_addMatches_mem]
  exact Or.inr ⟨hb, p, hp, hm⟩

theorem addMatches_filter_eq (branches : List (List Char)) (p : List Char)
    (hnd : branches.Nodup) :
    ∀ (sel : List (List Char)), addMatches branches sel p =
      sel ++ branches.filter (fun b => fnmatch b p && decide (¬ b ∈ sel)) := by
  induction branches with
  | nil => intro sel; simp [addMatches]
  | cons c rest ih =>
    intro sel
    have hc_rest : ¬ c ∈ rest := (List.nodup_cons.mp hnd).1
    have hnd2 : rest.Nodup := (List.nodup_cons.mp hnd).2
    rw [addMatches_cons]
    by_cases h1 : fnmatch c p ∧ ¬ c ∈ sel
    · rw [if_pos h1, ih hnd2]
      rw [List.filter_cons]
      have : (fnmatch c p && decide (¬ c ∈ sel)) = true := by
        simp [h1.1, h1.2]
      rw [if_pos this]
      have hfc : rest.filter (fun b => fnmatch b p && decide (¬ b ∈ sel ++ [c])) =
          rest.filter (fun b => fnmatch b p && decide (¬ b ∈ sel)) := by
        apply List.filter_congr
        intro b hb
        have hbc : b ≠ c := fun he => hc_rest (he ▸ hb)
        simp [List.mem_append, hbc]
      rw [hfc]
      simp
    · rw [if_neg h1, ih hnd2]
      rw [List.filter_cons]
      have : ¬ ((fnmatch c p && decide (¬ c ∈ sel)) = true) := by
        intro hcon
        simp only [Bool.and_eq_true, decide_eq_true_eq] at hcon
        exact h1 ⟨hcon.1, hcon.2⟩
      rw [if_neg this]

theorem foldl_addMatches_firstMatch (branches : List (List Char))
    (hnd : branches.Nodup) :
    ∀ (ps sel : List (List Char)), ps.foldl (addMatches branches) sel =
      sel ++ firstMatchSel (branches.filter (fun b => decide (¬ b ∈ sel))) ps := by
  intro ps
  induction ps with
  | nil => intro sel; simp [firstMatchSel]
  | cons p ps ih =>
    intro sel
    rw [List.foldl_cons, ih, addMatches_filter_eq branches p hnd]
    simp only [firstMatchSel]
    rw [List.append_assoc]
    congr 1
    have hfilter1 : branches.filter (fun b => fnmatch b p && decide (¬ b ∈ sel)) =
        (branches.filter (fun b => decide (¬ b ∈ sel))).filter (fun b => fnmatch b p) := by
      rw [List.filter_filter]
    have hfilter2 : branches.filter
        (fun b => decide (¬ b ∈ sel ++ branches.filter
          (fun b2 => fnmatch b2 p && decide (¬ b2 ∈ sel)))) =
        (branches.filter (fun b => decide (¬ b ∈ sel))).filter
          (fun b => ! fnmatch b p) := by
      rw [List.filter_filter]
      apply List.filter_congr
      intro b hb
      by_cases hbs : b ∈ sel
      · simp [hbs]
      · by_cases hbm : fnmatch b p
        · simp [List.mem_append, List.mem_filter, hbs, hbm, hb]
        · simp [List.mem_append, List.mem_filter, hbs, hbm]
    rw [hfilter2, hfilter1]

theorem selectVars_firstMatch (branches ps : List (List Char))
    (hnd : branches.Nodup) :
    selectVars branches ps = firstMatchSel branches ps := by
  unfold selectVars
  rw [foldl_addMatches_firstMatch branches hnd]
  simp

/-! ### `get_matching_variables` -/

theorem gmvGo_false_ok (branches : List (List Char)) :
    ∀ (ps sel : List (List Char)),
      gmvGo branches false ps sel = .ok (ps.foldl (addMatches branches) sel) := by
  intro ps
  induction ps with
  | nil => intro sel; rfl
  | cons p ps ih =>
    intro sel
    simp only [gmvGo, Bool.and_false, List.foldl_cons]
    rw [if_neg (by simp)]
    exact ih _

theorem gmv_false_eq_selectVars (branches ps : List (List Char)) :
    get_matching_variables branches ps false = .ok (selectVars branches ps) :=
  gmvGo_false_ok branches ps []

theorem gmvGo_true_ok (branches : List (List Char)) :
    ∀ (ps sel out : List (List Char)),
      gmvGo branches true ps sel = .ok out →
      out = ps.foldl (addMatches branches) sel := by
  intro ps
  induction ps with
  | nil =>
    intro sel out h
    cases h
    rfl
  | cons p ps ih =>
    intro sel out h
    simp only [gmvGo] at h
    split at h
    · cases h
    · exact ih _ out h

theorem gmvGo_true_offender (branches : List (List Char)) :
    ∀ (ps sel : List (List Char)),
      (∃ p ∈ ps, ∀ b ∈ branches, fnmatch b p = false) →
      ∃ q, q ∈ ps ∧ (∀ b ∈ branches, fnmatch b q = false) ∧
        gmvGo branches true ps sel = .error (.patternNotFound q) := by
  intro ps
  induction ps with
  | nil =>
    intro sel h
    obtain ⟨p, hp, _⟩ := h
    cases hp
  | cons p ps ih =>
    intro sel h
    by_cases hfound : branches.any (fun b => fnmatch b p)
    · have hrec : ∃ q ∈ ps, ∀ b ∈ branches, fnmatch b q = false := by
        obtain ⟨q, hq, hnm⟩ := h
        rcases List.mem_cons.mp hq with h2 | h2
        · subst h2
          obtain ⟨b, hb, hm⟩ := List.any_eq_true.mp hfound
          exact absurd (hnm b hb) (by simp [hm])
        · exact ⟨q, h2, hnm⟩
      obtain ⟨q, hq, hnm, hgo⟩ := ih _ hrec
      refine ⟨q, List.mem_cons_of_mem _ hq, hnm, ?_⟩
      simp only [gmvGo]
      rw [if_neg (by simp [hfound])]
      exact hgo
    · refine ⟨p, List.mem_cons_self _ _, ?_, ?_⟩
      · intro b hb
        by_contra hm
        exact hfound (List.any_eq_true.mpr ⟨b, hb, by simpa using hm⟩)
      · simp only [gmvGo]
        rw [if_pos (by simp [hfound])]

theorem selectVars_filter_matched (branches ps : List (List Char)) :
    selectVars branches ps =
      selectVars branches (ps.filter (fun p => branches.any (fun b => fnmatch b p))) := by
  unfold selectVars
  suffices h : ∀ (ps sel : List (List Char)),
      ps.foldl (addMatches branches) sel =
        (ps.filter (fun p => branches.any (fun b => fnmatch b p))).foldl
          (addMatches branches) sel by
    exact h ps []
  intro ps2
  induction ps2 with
  | nil => intro sel; rfl
  | cons p ps2 ih =>
    intro sel
    rw [List.foldl_cons, List.filter_cons]
    by_cases hfound : branches.any (fun b => fnmatch b p)
    · rw [if_pos (by simpa using hfound), List.foldl_cons]
      exact ih _
    · rw [if_neg (by simpa using hfound)]
      have : addMatches branches sel p = sel := by
        apply addMatches_covered
        intro b hb hm
        exact absurd (show (branches.any fun b2 => fnmatch b2 p) = true from
          List.any_eq_true.mpr ⟨b, hb, hm⟩) hfound
      rw [this]
      exact ih _

/-! ### `pyremove` and `removeEach` -/

theorem pyremove_ok (x : List Char) :
    ∀ (l r : List (List Char)), pyremove x l = .ok r →
      x ∈ l ∧ r = l.erase x := by
  intro l
  induction l with
  | nil => intro r h; cases h
  | cons b rest ih =>
    intro r h
    simp only [pyremove] at h
    by_cases hbx : b = x
    · rw [if_pos hbx] at h
      cases h
      subst hbx
      refine ⟨List.mem_cons_self _ _, ?_⟩
      rw [List.erase_cons_head]
    · rw [if_neg hbx] at h
      cases hrec : pyremove x rest with
      | error e => rw [hrec] at h; cases h
      | ok r2 =>
        rw [hrec] at h
        simp only [Except.map] at h
        cases h
        obtain ⟨hmem, herase⟩ := ih r2 hrec
        refine ⟨List.mem_cons_of_mem _ hmem, ?_⟩
        rw [List.erase_cons_tail (by simpa using hbx), herase]

theorem removeEach_subset (xs : List (List Char)) :
    ∀ (l r : List (List Char)), removeEach l xs = .ok r → r ⊆ l := by
  induction xs with
  | nil =>
    intro l r h
    cases h
    exact List.Subset.refl _
  | cons x xs ih =>
    intro l r h
    simp only [removeEach] at h
    cases hrem : pyremove x l with
    | error e => rw [hrem] at h; cases h
    | ok l2 =>
      rw [hrem] at h
      obtain ⟨_, herase⟩ := pyremove_ok x l l2 hrem
      exact fun a ha => (herase ▸ List.erase_subset _ _) (ih l2 r h ha)

theorem removeEach_removed (xs : List (List Char)) :
    ∀ (l r : List (List Char)), l.Nodup → removeEach l xs = .ok r →
      ∀ v ∈ xs, ¬ v ∈ r := by
  induction xs with
  | nil =>
    intro l r _ h v hv
    cases hv
  | cons x xs ih =>
    intro l r hnd h v hv
    simp only [removeEach] at h
    cases hrem : pyremove x l with
    | error e => rw [hrem] at h; cases h
    | ok l2 =>
      rw [hrem] at h
      obtain ⟨hmem, herase⟩ := pyremove_ok x l l2 hrem
      have hnd2 : l2.Nodup := herase ▸ hnd.erase x
      rcases List.mem_cons.mp hv with h2 | h2
      · subst h2
        intro hvr
        have : v ∈ l2 := removeEach_subset xs l2 r h hvr
        rw [herase] at this
        exact (List.Nodup.mem_erase_iff hnd).mp this |>.1 rfl
      · exact ih l2 r hnd2 h v h2

theorem removeEach_kept (xs : List (List Char)) :
    ∀ (l r : List (List Char)), removeEach l xs = .ok r →
      ∀ b ∈ l, ¬ b ∈ xs → b ∈ r := by
  induction xs with
  | nil =>
    intro l r h b hb _
    cases h
    exact hb
  | cons x xs ih =>
    intro l r h b hb hbx
    simp only [removeEach] at h
    cases hrem : pyremove x l with
    | error e => rw [hrem] at h; cases h
    | ok l2 =>
      rw [hrem] at h
      obtain ⟨hmem, herase⟩ := pyremove_ok x l l2 hrem
      have hbne : b ≠ x := fun he => hbx (he ▸ List.mem_cons_self _ _)
      have hb2 : b ∈ l2 := by
        rw [herase]
        exact (List.mem_erase_of_ne hbne).mpr hb
      exact ih l2 r h b hb2 (fun hc => hbx (List.mem_cons_of_mem _ hc))

/-! ### Chunk partition -/

theorem ceilDiv_nil (c : Nat) : ceilDiv 0 c = 0 := by
  unfold ceilDiv
  cases c with
  | zero => rfl
  | succ c => exact Nat.div_eq_of_lt (by omega)

theorem ceilDiv_step (n c : Nat) (hc : 0 < c) (hn : 0 < n) :
    ceilDiv n c = ceilDiv (n - c) c + 1 := by
  unfold ceilDiv
  have h1 : n + c - 1 = (n - 1) + c := by omega
  rw [h1, Nat.add_div_right _ hc]
  by_cases h2 : c ≤ n
  · have h3 : n - c + c - 1 = n - 1 := by omega
    rw [h3]
  · have h3 : n - c = 0 := by omega
    rw [h3]
    have h4 : (0 + c - 1) / c = 0 := Nat.div_eq_of_lt (by omega)
    have h5 : (n - 1) / c = 0 := Nat.div_eq_of_lt (by omega)
    rw [h4, h5]

theorem chunk_partition {α : Type} (c : Nat) (hc : 0 < c) :
    ∀ (n : Nat) (l : List α), l.length ≤ n →
      ((List.range (ceilDiv l.length c)).map
        (fun k => (l.drop (k * c)).take c)).flatten = l := by
  intro n
  induction n with
  | zero =>
    intro l hl
    have : l = [] := List.eq_nil_of_length_eq_zero (by omega)
    subst this
    simp [ceilDiv_nil]
  | succ n ih =>
    intro l hl
    cases hl0 : l with
    | nil => simp [ceilDiv_nil]
    | cons a l0 =>
      rw [← hl0]
      have hlen : 0 < l.length := by rw [hl0]; simp
      rw [ceilDiv_step l.length c hc hlen, List.range_succ_eq_map]
      simp only [List.map_cons, List.map_map, List.flatten_cons]
      have h0 : (l.drop (0 * c)).take c = l.take c := by simp
      rw [h0]
      have hmap : List.map ((fun k => (l.drop (k * c)).take c) ∘ Nat.succ)
          (List.range (ceilDiv (l.length - c) c)) =
          List.map (fun k => ((l.drop c).drop (k * c)).take c)
            (List.range (ceilDiv (l.length - c) c)) := by
        apply List.map_congr_left
        intro k _
        simp only [Function.comp_apply]
        rw [List.drop_drop]
        have he : Nat.succ k * c = c + k * c := by
          rw [Nat.succ_mul]
          exact Nat.add_comm _ _
        rw [he]
      rw [hmap]
      have hlen2 : (l.drop c).length = l.length - c := by simp
      have := ih (l.drop c) (by rw [List.length_drop]; omega)
      rw [hlen2] at this
      rw [this, List.take_append_drop]

theorem flatten_map_filter {α : Type} (p : α → Bool) (ls : List (List α)) :
    (ls.map (List.filter p)).flatten = ls.flatten.filter p := by
  induction ls with
  | nil => rfl
  | cons x ls ih =>
    simp only [List.map_cons, List.flatten_cons, List.filter_append, ih]

theorem flatten_map_map {α β : Type} (f : α → β) (ls : List (List α)) :
    (ls.map (List.map f)).flatten = ls.flatten.map f := by
  induction ls with
  | nil => rfl
  | cons x ls ih =>
    simp only [List.map_cons, List.flatten_cons, List.map_append, ih]

/-! ## Claim theorems -/

/-- C9: `expand_braces` terminates on every input string, including nested,
adjacent, comma-free or unbalanced brace groups: the recursion of the fueled
model always bottoms out within the computable fuel `expandFuel s` (each
comma-branch call strictly shrinks the string, each escape-branch call
strictly decreases the number of unescaped closing braces), and
`expand_braces s` is exactly the value the recursion produces. -/
theorem c9_expand_braces_terminates (s : List Char) :
    expandF (expandFuel s) s = some (expand_braces s) :=
  expand_braces_eq_expandF s (expandFuel s) (expandF_expandFuel_isSome s)

/-- C8: for every glob string in which the regex finds no brace group,
`expand_braces` returns exactly one result: the input with every escaped
closing brace rewritten to a bare closing brace. -/
theorem c8_no_group_unescape (s : List Char) (h : findGroup s = none) :
    expand_braces s = [unesc s] := by
  obtain ⟨B, hB⟩ : ∃ B, expandFuel s = B + 1 :=
    ⟨expandFuel s - 1, by have := expandFuel_pos s; omega⟩
  unfold expand_braces
  rw [hB]
  simp only [expandF]
  rw [h]
  rfl

/-- Witness for C8 at the concrete input `A` backslash closing-brace `B`. -/
theorem c8_no_group_unescape_witness :
    findGroup ['A', bsChar, rbChar, 'B'] = none ∧
      expand_braces ['A', bsChar, rbChar, 'B'] = [unesc ['A', bsChar, rbChar, 'B']] :=
  ⟨by decide, c8_no_group_unescape ['A', bsChar, rbChar, 'B'] (by decide)⟩

/-- C7: brace expansion of `A` `{B,C}` yields exactly the set of the two
strings `AB`, `AC`, and expansion of `{A,B}{C,D}` yields exactly the four
concatenations, with no duplicates in either result list. -/
theorem c7_brace_expansion_examples :
    ((expand_braces (['A', lbChar, 'B', ',', 'C', rbChar])).toFinset =
        {['A', 'B'], ['A', 'C']} ∧
      (expand_braces (['A', lbChar, 'B', ',', 'C', rbChar])).Nodup) ∧
    ((expand_braces ([lbChar, 'A', ',', 'B', rbChar, lbChar, 'C', ',', 'D', rbChar])).toFinset =
        {['A', 'C'], ['A', 'D'], ['B', 'C'], ['B', 'D']} ∧
      (expand_braces ([lbChar, 'A', ',', 'B', rbChar, lbChar, 'C', ',', 'D', rbChar])).Nodup) := by
  refine ⟨⟨?_, ?_⟩, ⟨?_, ?_⟩⟩ <;> decide

/-- C5: the selector's output contains a column exactly once — at the
position given by the first pattern it matches, patterns in order, columns
tested in branch order — and never again for later patterns (conjunct 3,
stated against `firstMatchSel` for duplicate-free branch lists); its
membership is match-membership (conjunct 1), it has no duplicates
(conjunct 2), it is idempotent under duplicate patterns in general
(conjunct 4), and `select([x,y,z],[z,x]) = [z,x]` (conjunct 5). -/
theorem c5_selector_first_match :
    (∀ (branches ps : List (List Char)) (b : List Char),
      b ∈ selectVars branches ps ↔ b ∈ branches ∧ ∃ p ∈ ps, fnmatch b p) ∧
    (∀ (branches ps : List (List Char)), (selectVars branches ps).Nodup) ∧
    (∀ (branches ps : List (List Char)), branches.Nodup →
      selectVars branches ps = firstMatchSel branches ps) ∧
    (∀ (branches ps1 ps2 : List (List Char)) (p : List Char), p ∈ ps1 →
      selectVars branches (ps1 ++ p :: ps2) = selectVars branches (ps1 ++ ps2)) ∧
    selectVars [['x'], ['y'], ['z']] [['z'], ['x']] = [['z'], ['x']] := by
  refine ⟨selectVars_mem, selectVars_nodup,
    fun branches ps h => selectVars_firstMatch branches ps h,
    fun branches ps1 ps2 p h => selectVars_dup_pattern branches ps1 ps2 p h,
    by decide⟩

/-- Witness for C5: duplicate-pattern idempotence at `A*` over branches
`AB`, `AC`, and the first-match characterisation at the same input. -/
theorem c5_selector_first_match_witness :
    (patAstar ∈ [patAstar] ∧
      selectVars [nameAB, nameAC] ([patAstar] ++ patAstar :: []) =
        selectVars [nameAB, nameAC] ([patAstar] ++ [])) ∧
    ([nameAB, nameAC].Nodup ∧
      selectVars [nameAB, nameAC] [patAstar] =
        firstMatchSel [nameAB, nameAC] [patAstar]) :=
  ⟨⟨by decide,
      c5_selector_first_match.2.2.2.1 [nameAB, nameAC] [patAstar] [] patAstar (by decide)⟩,
    ⟨by decide,
      c5_selector_first_match.2.2.1 [nameAB, nameAC] [patAstar] (by decide)⟩⟩

/-- C6: with `fail=True` the selector raises a pattern-not-found error
naming an offending (zero-match) pattern whenever the pattern list contains
one; with `fail=False` it returns the selection of the remaining patterns —
a non-matching pattern contributes nothing and raises no error. -/
theorem c6_selector_no_match :
    (∀ (branches ps : List (List Char)),
      (∃ p ∈ ps, ∀ b ∈ branches, fnmatch b p = false) →
      ∃ q, q ∈ ps ∧ (∀ b ∈ branches, fnmatch b q = false) ∧
        get_matching_variables branches ps true = .error (.patternNotFound q)) ∧
    (∀ (branches ps : List (List Char)),
      get_matching_variables branches ps false = .ok (selectVars branches ps)) ∧
    (∀ (branches ps : List (List Char)),
      selectVars branches ps =
        selectVars branches (ps.filter (fun p => branches.any (fun b => fnmatch b p)))) :=
  ⟨fun branches ps h => gmvGo_true_offender branches ps [] h,
    gmv_false_eq_selectVars, selectVars_filter_matched⟩

/-- Witness for C6: the pattern `z` matches no branch of `AB`, `AC`. -/
theorem c6_selector_no_match_witness :
    (∃ p ∈ [['z']], ∀ b ∈ [nameAB, nameAC], fnmatch b p = false) ∧
    (∃ q, q ∈ [['z']] ∧ (∀ b ∈ [nameAB, nameAC], fnmatch b q = false) ∧
      get_matching_variables [nameAB, nameAC] [['z']] true =
        .error (.patternNotFound q)) :=
  ⟨by decide, c6_selector_no_match.1 [nameAB, nameAC] [['z']] (by decide)⟩

/-- C10: a load call whose `columns` is the empty list (or the empty
string) behaves exactly like a call without `columns` — the falsiness test
makes the column-resolution branch select every available branch, and no
pattern-not-found error can arise from the column step. -/
theorem c10_empty_columns :
    (∀ (α : Type) (src : RootSource α) (tk : Option (List Char)) (ig : PyArg)
        (ch : Option Nat) (w : Option (List Char)),
      readRoot src tk (.pylist []) ig ch w = readRoot src tk .pynone ig ch w) ∧
    (∀ (α : Type) (src : RootSource α) (tk : Option (List Char)) (ig : PyArg)
        (ch : Option Nat) (w : Option (List Char)),
      readRoot src tk (.pystr []) ig ch w = readRoot src tk .pynone ig ch w) ∧
    (∀ (α : Type) (src : RootSource α) (t : List Char),
      includeVars src t (.pylist []) = .ok (src.branchesOf t)) ∧
    (∀ (α : Type) (src : RootSource α) (t : List Char),
      includeVars src t (.pystr []) = .ok (src.branchesOf t)) :=
  ⟨fun _ _ _ _ _ _ => rfl, fun _ _ _ _ _ _ => rfl,
    fun _ _ _ => rfl, fun _ _ _ => rfl⟩

/-- Counterexample for C4 as stated: on a source with the two trees `T1`,
`T2`, the load fails as claimed, but the error message interpolates the file
path and does not list the available tree keys (neither `T1` nor `T2`
occurs in it). -/
theorem c4_counterexample :
    readRoot srcTwo none .pynone .pynone none none =
      .error (.moreThanOneTree pathF) ∧
    keyT1 ∈ srcTwo.trees ∧ keyT2 ∈ srcTwo.trees ∧
    containsSub (errMessage (.moreThanOneTree pathF)) keyT1 = false ∧
    containsSub (errMessage (.moreThanOneTree pathF)) keyT2 = false ∧
    containsSub (errMessage (.moreThanOneTree pathF)) pathF = true :=
  ⟨rfl, by decide, by decide, by decide, by decide, by decide⟩

/-- C4 (amended): without a tree key, a source whose number of trees is
different from one makes the load fail with the ambiguous-tree error — whose
message names the source path, not the tree keys — and with exactly one tree
that tree is used (resolution succeeds and the call equals the call with
the key passed explicitly). -/
theorem c4_ambiguous_tree :
    (∀ (α : Type) (src : RootSource α) (cols ig : PyArg) (ch : Option Nat)
        (w : Option (List Char)),
      src.trees.length ≠ 1 →
      readRoot src none cols ig ch w = .error (.moreThanOneTree src.path)) ∧
    (∀ (α : Type) (src : RootSource α) (cols ig : PyArg) (ch : Option Nat)
        (w : Option (List Char)) (t : List Char),
      src.trees = [t] →
      resolveTreeKey src none = .ok t ∧
      readRoot src none cols ig ch w = readRoot src (some t) cols ig ch w) := by
  constructor
  · intro α src cols ig ch w hne
    have hkey : resolveTreeKey src none = .error (.moreThanOneTree src.path) := by
      unfold resolveTreeKey
      cases htr : src.trees with
      | nil => rfl
      | cons t rest =>
        cases rest with
        | nil => exact absurd (by rw [htr]; rfl) hne
        | cons t2 r2 => rfl
    unfold readRoot resolveVars
    rw [hkey]
  · intro α src cols ig ch w t htrees
    have hkey : resolveTreeKey src none = .ok t := by
      unfold resolveTreeKey
      rw [htrees]
      rfl
    have hkey2 : resolveTreeKey src (some t) = .ok t := by
      unfold resolveTreeKey
      by_cases ht : t.isEmpty
      · simp only [ht, if_true]
        rw [htrees]
      · simp only [ht, if_false]
        rfl
    refine ⟨hkey, ?_⟩
    unfold readRoot resolveVars
    rw [hkey, hkey2]

/-- Witness for C4 (amended): the two-tree source errors; the one-tree
source resolves to its single tree. -/
theorem c4_ambiguous_tree_witness :
    (srcTwo.trees.length ≠ 1 ∧
      readRoot srcTwo none .pynone .pynone none none =
        .error (.moreThanOneTree srcTwo.path)) ∧
    (srcChunk.trees = [treeT] ∧
      resolveTreeKey srcChunk none = .ok treeT ∧
      readRoot srcChunk none .pynone .pynone none none =
        readRoot srcChunk (some treeT) .pynone .pynone none none) :=
  ⟨⟨by decide, c4_ambiguous_tree.1 Nat srcTwo .pynone .pynone none none (by decide)⟩,
    ⟨rfl, (c4_ambiguous_tree.2 Nat srcChunk .pynone .pynone none none treeT rfl).1,
      (c4_ambiguous_tree.2 Nat srcChunk .pynone .pynone none none treeT rfl).2⟩⟩

/-- Brace expansion of the literal column name `index` is itself. -/
theorem expand_braces_strIndex : expand_braces strIndex = [strIndex] := by decide

/-- The literal pattern `index` matches the branch `index`. -/
theorem fnmatch_strIndex : fnmatch strIndex strIndex = true := by decide

theorem resolveVars_ok_inv {α : Type} (src : RootSource α)
    (tk : Option (List Char)) (cols ig : PyArg) (t : List Char)
    (vars : List (List Char))
    (h : resolveVars src tk cols ig = .ok (t, vars)) :
    resolveTreeKey src tk = .ok t ∧
    ∃ v0, includeVars src t cols = .ok v0 ∧ ignoreVars src t ig v0 = .ok vars := by
  unfold resolveVars at h
  cases hk : resolveTreeKey src tk with
  | error e => rw [hk] at h; cases h
  | ok t0 =>
    rw [hk] at h
    dsimp only at h
    cases hi : includeVars src t0 cols with
    | error e => rw [hi] at h; cases h
    | ok v0 =>
      rw [hi] at h
      dsimp only at h
      cases hg : ignoreVars src t0 ig v0 with
      | error e => rw [hg] at h; cases h
      | ok v1 =>
        rw [hg] at h
        dsimp only at h
        injection h with h2
        injection h2 with h3 h4
        subst h3
        subst h4
        exact ⟨rfl, v0, hi, hg⟩

theorem strIndex_mem_expanded (cols2 : List (List Char))
    (hmem : strIndex ∈ cols2) :
    strIndex ∈ (cols2.map expand_braces).flatten := by
  rw [List.mem_flatten]
  exact ⟨[strIndex], by
    rw [List.mem_map]
    exact ⟨strIndex, hmem, expand_braces_strIndex⟩, by simp⟩

/-- C2: on a source whose resolved tree has a branch literally named
`index`: (1) whenever column resolution succeeds, `index` is in the final
selection, whatever the include patterns were; (2) an ignore step whose
patterns match the `index` branch fails with the reserved-column error;
(3) a whole load whose tree and include steps succeed and whose ignore
patterns match `index` fails with the reserved-column error. -/
theorem c2_index_always_selected :
    (∀ (α : Type) (src : RootSource α) (tk : Option (List Char))
        (cols ig : PyArg) (t : List Char) (vars : List (List Char)),
      resolveVars src tk cols ig = .ok (t, vars) →
      strIndex ∈ src.branchesOf t → strIndex ∈ vars) ∧
    (∀ (α : Type) (src : RootSource α) (t : List Char) (ig : PyArg)
        (v0 : List (List Char)),
      strIndex ∈ src.branchesOf t → ig.falsy = false →
      (∃ p ∈ ig.asList, fnmatch strIndex p) →
      ignoreVars src t ig v0 = .error .indexIgnored) ∧
    (∀ (α : Type) (src : RootSource α) (tk : Option (List Char))
        (cols ig : PyArg) (t : List Char) (v0 : List (List Char))
        (ch : Option Nat) (w : Option (List Char)),
      resolveTreeKey src tk = .ok t → includeVars src t cols = .ok v0 →
      strIndex ∈ src.branchesOf t → ig.falsy = false →
      (∃ p ∈ ig.asList, fnmatch strIndex p) →
      readRoot src tk cols ig ch w = .error .indexIgnored) := by
  have hpart2 : ∀ (α : Type) (src : RootSource α) (t : List Char) (ig : PyArg)
      (v0 : List (List Char)),
      strIndex ∈ src.branchesOf t → ig.falsy = false →
      (∃ p ∈ ig.asList, fnmatch strIndex p) →
      ignoreVars src t ig v0 = .error .indexIgnored := by
    intro α src t ig v0 hidx hf hmatch
    unfold ignoreVars
    rw [if_neg (by simp [hf])]
    have hmem : strIndex ∈ ignoredNames src t ig := by
      unfold ignoredNames
      apply strIndex_mem_expanded
      rw [selectVars_mem]
      exact ⟨hidx, hmatch⟩
    rw [if_pos hmem]
  refine ⟨?_, hpart2, ?_⟩
  · intro α src tk cols ig t vars hres hidx
    obtain ⟨hk, v0, hi, hg⟩ := resolveVars_ok_inv src tk cols ig t vars hres
    have hv0 : strIndex ∈ v0 := by
      unfold includeVars at hi
      by_cases hf : cols.falsy
      · rw [if_pos (by simp [hf])] at hi
        injection hi with h2
        subst h2
        exact hidx
      · rw [if_neg (by simp [hf])] at hi
        have hv0eq := gmvGo_true_ok (src.branchesOf t) _ [] v0 hi
        rw [hv0eq]
        have : strIndex ∈ selectVars (src.branchesOf t)
            (((if strIndex ∈ src.branchesOf t then cols.asList ++ [strIndex]
                else cols.asList).map expand_braces).flatten) := by
          rw [selectVars_mem]
          refine ⟨hidx, strIndex, ?_, fnmatch_strIndex⟩
          apply strIndex_mem_expanded
          rw [if_pos hidx]
          simp
        exact this
    unfold ignoreVars at hg
    by_cases hf : ig.falsy
    · rw [if_pos (by simp [hf])] at hg
      injection hg with h2
      subst h2
      exact hv0
    · rw [if_neg (by simp [hf])] at hg
      by_cases hmem : strIndex ∈ ignoredNames src t ig
      · rw [if_pos hmem] at hg
        cases hg
      · rw [if_neg hmem] at hg
        exact removeEach_kept _ v0 vars hg strIndex hv0 hmem
  · intro α src tk cols ig t v0 ch w hk hi hidx hf hmatch
    have hres : resolveVars src tk cols ig = .error .indexIgnored := by
      unfold resolveVars
      rw [hk]
      dsimp only
      rw [hi]
      dsimp only
      rw [hpart2 α src t ig v0 hidx hf hmatch]
    unfold readRoot
    rw [hres]

/-- Witness for C2 at a source whose tree has branches `index` and `AB`:
including with `A*` still selects `index`; ignoring `index` errors. -/
theorem c2_index_always_selected_witness :
    (resolveVars srcIdx none (.pylist [patAstar]) .pynone =
        .ok (treeT, [nameAB, strIndex]) ∧
      strIndex ∈ srcIdx.branchesOf treeT ∧
      strIndex ∈ [nameAB, strIndex]) ∧
    (strIndex ∈ srcIdx.branchesOf treeT ∧
      (PyArg.pylist [strIndex]).falsy = false ∧
      (∃ p ∈ (PyArg.pylist [strIndex]).asList, fnmatch strIndex p) ∧
      readRoot srcIdx none .pynone (.pylist [strIndex]) none none =
        .error .indexIgnored) :=
  ⟨⟨rfl, by decide,
      c2_index_always_selected.1 Nat srcIdx none (.pylist [patAstar]) .pynone
        treeT [nameAB, strIndex] rfl (by decide)⟩,
    ⟨by decide, by decide, by decide,
      c2_index_always_selected.2.2 Nat srcIdx none .pynone (.pylist [strIndex])
        treeT (srcIdx.branchesOf treeT) none none rfl rfl (by decide) (by decide)
        (by decide)⟩⟩

/-- Counterexample for C3 as stated: on a source with the two branches
`a\}b` (`nameEsc`) and `a}b` (`nameUnesc`), the call with include `*` and
ignore pattern `a\}b` succeeds, the ignore pattern matches the branch
`nameEsc` — yet `nameEsc` remains in the resulting selection, because the
code brace-expands the *matched names* after matching, and the expansion
rewrites `a\}b` to `a}b`, so the other branch is removed instead. -/
theorem c3_counterexample :
    resolveVars srcEsc none (.pylist [['*']]) (.pylist [nameEsc]) =
      .ok (treeT, [nameEsc]) ∧
    nameEsc ∈ srcEsc.branchesOf treeT ∧
    nameEsc ∈ (PyArg.pylist [nameEsc]).asList ∧
    fnmatch nameEsc nameEsc = true ∧
    nameEsc ∈ [nameEsc] :=
  ⟨rfl, by decide, by decide, by decide, by decide⟩

/-- C3 (amended): when both `columns` and `ignore` are given and the load's
column resolution succeeds, every column name obtained by brace-expanding
the names matched by the ignore patterns is removed from the resulting
selection, overriding the include patterns (for matched names without brace
escapes this is the matched name itself); in particular
`columns=[A*], ignore=[AB]` on branches `AB`, `AC` yields the selection
`[AC]`, without `AB`. -/
theorem c3_ignore_overrides_includes :
    (∀ (α : Type) (src : RootSource α) (tk : Option (List Char))
        (cols ig : PyArg) (t : List Char) (vars : List (List Char)),
      cols.falsy = false → ig.falsy = false →
      resolveVars src tk cols ig = .ok (t, vars) →
      ∀ v ∈ ignoredNames src t ig, ¬ v ∈ vars) ∧
    (resolveVars srcAB none (.pylist [patAstar]) (.pylist [nameAB]) =
        .ok (treeT, [nameAC]) ∧
      ¬ nameAB ∈ [nameAC]) := by
  constructor
  · intro α src tk cols ig t vars hcf hif hres v hv
    obtain ⟨hk, v0, hi, hg⟩ := resolveVars_ok_inv src tk cols ig t vars hres
    have hv0nd : v0.Nodup := by
      unfold includeVars at hi
      rw [if_neg (by simp [hcf])] at hi
      have hv0eq := gmvGo_true_ok (src.branchesOf t) _ [] v0 hi
      rw [hv0eq]
      exact selectVars_nodup _ _
    unfold ignoreVars at hg
    rw [if_neg (by simp [hif])] at hg
    by_cases hmem : strIndex ∈ ignoredNames src t ig
    · rw [if_pos hmem] at hg
      cases hg
    · rw [if_neg hmem] at hg
      exact removeEach_removed _ v0 vars hv0nd hg v hv
  · exact ⟨rfl, by decide⟩

/-- Witness for C3 (amended) at the `A*`/`AB` example. -/
theorem c3_ignore_overrides_includes_witness :
    ((PyArg.pylist [patAstar]).falsy = false ∧
      (PyArg.pylist [nameAB]).falsy = false ∧
      resolveVars srcAB none (.pylist [patAstar]) (.pylist [nameAB]) =
        .ok (treeT, [nameAC])) ∧
    (∀ v ∈ ignoredNames srcAB treeT (.pylist [nameAB]), ¬ v ∈ [nameAC]) :=
  ⟨⟨by decide, by decide, c3_ignore_overrides_includes.2.1⟩,
    c3_ignore_overrides_includes.1 Nat srcAB none (.pylist [patAstar])
      (.pylist [nameAB]) treeT [nameAC] (by decide) (by decide)
      c3_ignore_overrides_includes.2.1⟩

theorem log2F_bracket : ∀ (f n : Nat), 1 ≤ n → n ≤ f →
    2 ^ (log2F f n) ≤ n ∧ n < 2 ^ (log2F f n + 1) := by
  intro f
  induction f with
  | zero => intro n h1 h2; omega
  | succ f ih =>
    intro n h1 h2
    by_cases hn : n ≤ 1
    · have : n = 1 := by omega
      subst this
      simp [log2F]
    · have h2' : n / 2 ≤ f := by omega
      have h1' : 1 ≤ n / 2 := by omega
      have := ih (n / 2) h1' h2'
      simp only [log2F, if_neg hn]
      obtain ⟨hl, hr⟩ := this
      constructor
      · have : 2 ^ (log2F f (n / 2) + 1) = 2 * 2 ^ (log2F f (n / 2)) := by ring
        rw [this]
        omega
      · have e1 : 2 ^ (log2F f (n / 2) + 1 + 1) = 2 * 2 ^ (log2F f (n / 2) + 1) := by
          ring
        rw [e1]
        omega

theorem rdiv_le_succ (x d : Nat) : rdiv x d ≤ x / d + 1 := by
  simp only [rdiv]
  split_ifs <;> omega

theorem div_le_rdiv (x d : Nat) : x / d ≤ rdiv x d := by
  simp only [rdiv]
  split_ifs <;> omega

theorem rdiv_exact (q d : Nat) (hd : 0 < d) : rdiv (q * d) d = q := by
  simp only [rdiv, Nat.mul_div_cancel _ hd, Nat.mul_mod_left]
  split_ifs <;> omega

theorem rdiv_le_of_lt (x d M : Nat) (hd : 0 < d) (h : x < M * d) : rdiv x d ≤ M := by
  have hq : x / d < M := by
    rw [Nat.div_lt_iff_lt_mul hd]
    exact h
  have := rdiv_le_succ x d
  omega

theorem succ_le_rdiv (x d F : Nat) (hd : 0 < d) (h : (2 * F + 1) * d < 2 * x) :
    F + 1 ≤ rdiv x d := by
  have hdm : d * (x / d) + x % d = x := Nat.div_add_mod x d
  have hmlt : x % d < d := Nat.mod_lt _ hd
  have hFq : F ≤ x / d := by
    by_contra hc
    push_neg at hc
    have key : (2 * (x / d) + 2) * d ≤ (2 * F) * d := Nat.mul_le_mul_right d (by omega)
    have e1 : (2 * (x / d) + 2) * d = 2 * (d * (x / d)) + 2 * d := by ring
    have e2 : (2 * F + 1) * d = (2 * F) * d + d := by ring
    omega
  rcases Nat.lt_or_ge F (x / d) with hlt | hge
  · have := div_le_rdiv x d
    omega
  · have hqF : x / d = F := by omega
    have e2 : (2 * F + 1) * d = 2 * (d * F) + d := by ring
    have hdr : d < 2 * (x % d) := by
      rw [hqF] at hdm
      omega
    simp only [rdiv]
    rw [hqF]
    split_ifs <;> omega

theorem ceilD_neg (M k : Nat) : ceilD ⟨M, -(k : Int)⟩ = (M + 2 ^ k - 1) / 2 ^ k := by
  cases k with
  | zero => simp [ceilD]
  | succ k =>
    have h1 : ¬ ((0 : Int) ≤ -((k + 1 : Nat) : Int)) := by omega
    have h2 : (-(-((k + 1 : Nat) : Int))).toNat = k + 1 := by omega
    simp only [ceilD, if_neg h1]
    rw [h2]

theorem ceil_two_mul (a b : Nat) (hb : 0 < b) :
    (2 * a + 2 * b - 1) / (2 * b) = (a + b - 1) / b := by
  have hdm : b * ((a + b - 1) / b) + (a + b - 1) % b = a + b - 1 := Nat.div_add_mod _ b
  have hml : (a + b - 1) % b < b := Nat.mod_lt _ hb
  apply Nat.div_eq_of_lt_le
  · have e1 : (a + b - 1) / b * (2 * b) = 2 * (b * ((a + b - 1) / b)) := by ring
    omega
  · have e2 : ((a + b - 1) / b + 1) * (2 * b) = 2 * (b * ((a + b - 1) / b)) + 2 * b := by
      ring
    omega

theorem ceilD_carry (k : Nat) :
    ceilD ⟨2 ^ 52, -(k : Int) + 1⟩ = (2 ^ 53 + 2 ^ k - 1) / 2 ^ k := by
  cases k with
  | zero => simp [ceilD]
  | succ k =>
    have h1 : -((k + 1 : Nat) : Int) + 1 = -(k : Int) := by omega
    rw [h1, ceilD_neg]
    have e1 : (2 : ℕ) ^ 53 = 2 * 2 ^ 52 := by ring
    have e2 : (2 : ℕ) ^ (k + 1) = 2 * 2 ^ k := by ring
    rw [e1, e2]
    rw [ceil_two_mul _ _ (pow_pos (by norm_num) k)]

theorem rdiv_ceil_core (N c j k : Nat) (hc : 0 < c) (hck : c < 2 ^ (k + 1)) :
    (rdiv (N * 2 ^ (j + k)) (c * 2 ^ j) + 2 ^ k - 1) / 2 ^ k = (N + c - 1) / c := by
  set m := N / c with hmdef
  set r := N % c with hrdef
  have hdm : c * m + r = N := Nat.div_add_mod N c
  have hrc : r < c := Nat.mod_lt _ hc
  have hpj : (0 : ℕ) < 2 ^ j := pow_pos (by norm_num) j
  have hpk : (0 : ℕ) < 2 ^ k := pow_pos (by norm_num) k
  have hd : 0 < c * 2 ^ j := Nat.mul_pos hc hpj
  rcases Nat.eq_zero_or_pos r with hr0 | hr1
  · have hx : N * 2 ^ (j + k) = (m * 2 ^ k) * (c * 2 ^ j) := by
      have hNm : N = c * m := by omega
      rw [hNm, pow_add]; ring
    rw [hx, rdiv_exact _ _ hd]
    have L : (m * 2 ^ k + 2 ^ k - 1) / 2 ^ k = m := by
      apply Nat.div_eq_of_lt_le
      · omega
      · have e1 : (m + 1) * 2 ^ k = m * 2 ^ k + 2 ^ k := by ring
        omega
    have R : (N + c - 1) / c = m := by
      apply Nat.div_eq_of_lt_le
      · have e1 : m * c = c * m := by ring
        omega
      · have e1 : (m + 1) * c = c * m + c := by ring
        omega
    rw [L, R]
  · set M := rdiv (N * 2 ^ (j + k)) (c * 2 ^ j) with hM
    have hub : M ≤ (m + 1) * 2 ^ k := by
      apply rdiv_le_of_lt _ _ _ hd
      have e1 : ((m + 1) * 2 ^ k) * (c * 2 ^ j) = ((m + 1) * c) * 2 ^ (j + k) := by
        rw [pow_add]; ring
      rw [e1]
      apply (Nat.mul_lt_mul_right (pow_pos (by norm_num) (j + k))).mpr
      have e2 : (m + 1) * c = c * m + c := by ring
      omega
    have hlb : m * 2 ^ k + 1 ≤ M := by
      apply succ_le_rdiv _ _ _ hd
      have e1 : (2 * (m * 2 ^ k) + 1) * (c * 2 ^ j) =
          2 * (c * m) * 2 ^ (j + k) + c * 2 ^ j := by
        rw [pow_add]; ring
      have e2 : 2 * (N * 2 ^ (j + k)) =
          2 * (c * m) * 2 ^ (j + k) + 2 * r * 2 ^ (j + k) := by
        rw [← hdm]; ring
      rw [e1, e2]
      apply Nat.add_lt_add_left
      have e3 : 2 * r * 2 ^ (j + k) = (2 * r * 2 ^ k) * 2 ^ j := by
        rw [pow_add]; ring
      rw [e3]
      apply (Nat.mul_lt_mul_right hpj).mpr
      have e5 : (2 : ℕ) ^ (k + 1) = 2 * 2 ^ k := by ring
      have e6 : 2 * 2 ^ k ≤ 2 * r * 2 ^ k := by
        have : 2 ≤ 2 * r := by omega
        exact Nat.mul_le_mul_right _ this
      omega
    have L : (M + 2 ^ k - 1) / 2 ^ k = m + 1 := by
      apply Nat.div_eq_of_lt_le
      · have e1 : (m + 1) * 2 ^ k = m * 2 ^ k + 2 ^ k := by ring
        omega
      · have e1 : (m + 1 + 1) * 2 ^ k = (m + 1) * 2 ^ k + 2 ^ k := by ring
        omega
    have R : (N + c - 1) / c = m + 1 := by
      apply Nat.div_eq_of_lt_le
      · have e1 : (m + 1) * c = c * m + c := by ring
        omega
      · have e1 : (m + 1 + 1) * c = c * m + c + c := by ring
        omega
    rw [L, R]

theorem floatOfNat_lt (n : Nat) (h1 : 1 ≤ n) (h2 : n < 2 ^ 53) :
    floatOfNat n = ⟨n * 2 ^ (52 - log2F n n), (log2F n n : Int) - 52⟩ ∧
    log2F n n ≤ 52 ∧ 2 ^ (log2F n n) ≤ n ∧ n < 2 ^ (log2F n n + 1) := by
  obtain ⟨hl, hr⟩ := log2F_bracket n n h1 le_rfl
  have he : log2F n n ≤ 52 := by
    by_contra hcon
    push_neg at hcon
    have : (2 : ℕ) ^ 53 ≤ 2 ^ (log2F n n) := Nat.pow_le_pow_right (by norm_num) (by omega)
    omega
  refine ⟨?_, he, hl, hr⟩
  simp only [floatOfNat, if_neg (by omega : ¬ n = 0), if_pos he]

theorem pyChunkCount_eq_ceilDiv (n c : Nat) (hn : n < 2 ^ 53) (hc : 0 < c)
    (hcb : c < 2 ^ 53) : pyChunkCount n c = ceilDiv n c := by
  rcases Nat.eq_zero_or_pos n with h0 | h1
  · subst h0
    have e1 : floatOfNat 0 = ⟨0, 0⟩ := by simp [floatOfNat]
    have e2 : floatDiv ⟨0, 0⟩ (floatOfNat c) = ⟨0, 0⟩ := by simp [floatDiv]
    have e3 : ceilD ⟨0, 0⟩ = 0 := by simp [ceilD]
    simp only [pyChunkCount, e1, e2, e3, ceilDiv]
    exact (Nat.div_eq_of_lt (by omega)).symm
  · obtain ⟨ha, heN, hNl, hNr⟩ := floatOfNat_lt n h1 hn
    obtain ⟨hb, hec, hcl, hcr⟩ := floatOfNat_lt c hc hcb
    set eN := log2F n n with heNdef
    set ec := log2F c c with hecdef
    have hA0 : n * 2 ^ (52 - eN) ≠ 0 := by positivity
    have hB0 : c * 2 ^ (52 - ec) ≠ 0 := by positivity
    have hOr : ¬ (n * 2 ^ (52 - eN) = 0 ∨ c * 2 ^ (52 - ec) = 0) := by
      push_neg
      exact ⟨hA0, hB0⟩
    simp only [pyChunkCount, ha, hb, floatDiv]
    rw [if_neg hOr]
    by_cases hBA : c * 2 ^ (52 - ec) ≤ n * 2 ^ (52 - eN)
    · rw [if_pos hBA]
      set k := 52 + ec - eN with hkdef
      have ht1 : (eN : Int) - 52 - ((ec : Int) - 52) - 52 = -(k : Int) := by omega
      have ht2 : (eN : Int) - 52 - ((ec : Int) - 52) - 51 = -(k : Int) + 1 := by omega
      rw [ht1, ht2]
      have hx : n * 2 ^ (52 - eN) * 2 ^ 52 = n * 2 ^ (52 - ec + k) := by
        rw [mul_assoc, ← pow_add]
        exact congrArg (fun t => n * 2 ^ t) (by omega)
      have hck : c < 2 ^ (k + 1) := by
        calc c < 2 ^ (ec + 1) := hcr
          _ ≤ 2 ^ (k + 1) := Nat.pow_le_pow_right (by norm_num) (by omega)
      have core := rdiv_ceil_core n c (52 - ec) k hc hck
      rw [hx]
      by_cases hM : rdiv (n * 2 ^ (52 - ec + k)) (c * 2 ^ (52 - ec)) = 2 ^ 53
      · rw [if_pos hM, ceilD_carry, ← hM, core]
        rfl
      · rw [if_neg hM, ceilD_neg, core]
        rfl
    · rw [if_neg hBA]
      set k := 53 + ec - eN with hkdef
      have ht1 : (eN : Int) - 52 - ((ec : Int) - 52) - 53 = -(k : Int) := by omega
      have ht2 : (eN : Int) - 52 - ((ec : Int) - 52) - 52 = -(k : Int) + 1 := by omega
      rw [ht1, ht2]
      have hx : n * 2 ^ (52 - eN) * 2 ^ 53 = n * 2 ^ (52 - ec + k) := by
        rw [mul_assoc, ← pow_add]
        exact congrArg (fun t => n * 2 ^ t) (by omega)
      have hck : c < 2 ^ (k + 1) := by
        calc c < 2 ^ (ec + 1) := hcr
          _ ≤ 2 ^ (k + 1) := Nat.pow_le_pow_right (by norm_num) (by omega)
      have core := rdiv_ceil_core n c (52 - ec) k hc hck
      rw [hx]
      by_cases hM : rdiv (n * 2 ^ (52 - ec + k)) (c * 2 ^ (52 - ec)) = 2 ^ 53
      · rw [if_pos hM, ceilD_carry, ← hM, core]
        rfl
      · rw [if_neg hM, ceilD_neg, core]
        rfl

theorem readRoot_chunks_eq {α : Type} (src : RootSource α)
    (tk : Option (List Char)) (cols ig : PyArg) (w : Option (List Char))
    (c : Nat) (hc : c ≠ 0) (t : List Char) (vars : List (List Char))
    (hres : resolveVars src tk cols ig = .ok (t, vars)) :
    readRoot src tk cols ig (some c) w =
      .ok (.chunks ((List.range (pyChunkCount (src.rowsOf t).length c)).map
        (fun k => convertDF vars
          (root2array src t vars (some (k * c, (k + 1) * c)) w)))) := by
  unfold readRoot
  rw [hres]
  dsimp only
  rw [if_pos hc]

theorem readRoot_single_eq {α : Type} (src : RootSource α)
    (tk : Option (List Char)) (cols ig : PyArg) (w : Option (List Char))
    (t : List Char) (vars : List (List Char))
    (hres : resolveVars src tk cols ig = .ok (t, vars)) :
    readRoot src tk cols ig none w =
      .ok (.single (convertDF vars (root2array src t vars none w))) := by
  unfold readRoot
  rw [hres]

/-- C1, counterexample to the chunk count as claimed: the number of chunks
is `int(ceil(float(n_entries) / chunksize))`, not `ceil(N/c)`.  For
`N = 2^53 + 1` rows, `float(N)` rounds (ties to even) down to `2^53`, so a
chunked load with `c = 1` yields `2^53` tables instead of the claimed
`ceil(N/1) = 2^53 + 1` — and the final row is consequently never read. -/
theorem c1_counterexample :
    ∃ dfs,
      readRoot srcBig none .pynone .pynone (some 1) none = .ok (.chunks dfs) ∧
      (srcBig.rowsOf treeT).length = 2 ^ 53 + 1 ∧
      dfs.length = 2 ^ 53 ∧
      ceilDiv (srcBig.rowsOf treeT).length 1 = 2 ^ 53 + 1 ∧
      dfs.length ≠ ceilDiv (srcBig.rowsOf treeT).length 1 := by
  have hlen : (srcBig.rowsOf treeT).length = 2 ^ 53 + 1 := by
    show (List.replicate (2 ^ 53 + 1) ()).length = 2 ^ 53 + 1
    exact List.length_replicate _ _
  refine ⟨_,
    readRoot_chunks_eq srcBig none .pynone .pynone none 1 (by decide) treeT
      [nameAB] rfl, hlen, ?_, ?_, ?_⟩
  · rw [List.length_map, List.length_range, hlen]
    decide
  · rw [hlen]
    decide
  · rw [List.length_map, List.length_range, hlen]
    decide

/-- C1, amended: for every source whose resolved tree's total row count `N`
and positive chunk size `c` both lie below `2^53` (so the float chunk
count of the source is the exact `ceil(N/c)`), a chunked load yields
exactly `ceil(N/c)` tables; the `k`-th table holds exactly the rows of the
range `[k*c, min((k+1)*c, N))` (passed through the `where` selection and
the column projection, like the unchunked read); concatenating the yielded
tables row-wise reproduces the table of the same call without a chunk
size; and without a row filter the `k`-th chunk has
`min((k+1)*c, N) - k*c` rows — `[3,3,3,1]` for the ten-row witness source
with `c = 3`. -/
theorem c1_chunked_read {α : Type} (src : RootSource α)
    (tk : Option (List Char)) (cols ig : PyArg) (w : Option (List Char))
    (c : Nat) (hc : 0 < c) (t : List Char) (vars : List (List Char))
    (hN : (src.rowsOf t).length < 2 ^ 53) (hc53 : c < 2 ^ 53)
    (hres : resolveVars src tk cols ig = .ok (t, vars)) :
    (∃ dfs df,
      readRoot src tk cols ig (some c) w = .ok (.chunks dfs) ∧
      readRoot src tk cols ig none w = .ok (.single df) ∧
      dfs.length = ceilDiv (src.rowsOf t).length c ∧
      (∀ k, ∀ hk : k < dfs.length,
        (dfs.get ⟨k, hk⟩).rows =
          ((((src.rowsOf t).take
              (min ((k + 1) * c) (src.rowsOf t).length)).drop (k * c)).filter
            (src.selFn w)).map (src.projFn vars) ∧
        (dfs.get ⟨k, hk⟩).indexed = df.indexed) ∧
      (dfs.map DFrame.rows).flatten = df.rows ∧
      ((∀ a, src.selFn w a = true) → ∀ k, ∀ hk : k < dfs.length,
        ((dfs.get ⟨k, hk⟩).rows).length =
          min ((k + 1) * c) (src.rowsOf t).length - k * c)) ∧
    (∃ dfsW, readRoot srcChunk none .pynone .pynone (some 3) none =
        .ok (.chunks dfsW) ∧
      dfsW.map (fun d => d.rows.length) = [3, 3, 3, 1]) := by
  have hfid : pyChunkCount (src.rowsOf t).length c = ceilDiv (src.rowsOf t).length c :=
    pyChunkCount_eq_ceilDiv _ _ hN hc hc53
  constructor
  · refine ⟨(List.range (ceilDiv (src.rowsOf t).length c)).map
      (fun k => convertDF vars
        (root2array src t vars (some (k * c, (k + 1) * c)) w)),
      convertDF vars (root2array src t vars none w),
      by rw [readRoot_chunks_eq src tk cols ig w c (by omega) t vars hres, hfid],
      readRoot_single_eq src tk cols ig w t vars hres, by simp, ?_, ?_, ?_⟩
    · intro k hk
      have hget : ((List.range (ceilDiv (src.rowsOf t).length c)).map
          (fun k => convertDF vars
            (root2array src t vars (some (k * c, (k + 1) * c)) w))).get ⟨k, hk⟩ =
          convertDF vars (root2array src t vars (some (k * c, (k + 1) * c)) w) := by
        rw [List.get_eq_getElem, List.getElem_map]
        congr 1
        rw [List.getElem_range]
      rw [hget]
      constructor
      · show ((((src.rowsOf t).drop (k * c)).take ((k + 1) * c - k * c)).filter
            (src.selFn w)).map (src.projFn vars) = _
        have hcc : (k + 1) * c - k * c = c := by
          rw [Nat.succ_mul]
          omega
        rw [hcc]
        have hslice : ((src.rowsOf t).drop (k * c)).take c =
            ((src.rowsOf t).take
              (min ((k + 1) * c) (src.rowsOf t).length)).drop (k * c) := by
          rw [List.take_drop]
          congr 1
          rw [List.take_eq_take]
          rw [Nat.succ_mul]
          omega
        rw [hslice]
      · rfl
    · have hmm : ((List.range (ceilDiv (src.rowsOf t).length c)).map
          (fun k => convertDF vars
            (root2array src t vars (some (k * c, (k + 1) * c)) w))).map DFrame.rows =
          ((List.range (ceilDiv (src.rowsOf t).length c)).map
            (fun k => ((src.rowsOf t).drop (k * c)).take c)).map
            (fun l => (l.filter (src.selFn w)).map (src.projFn vars)) := by
        rw [List.map_map, List.map_map]
        apply List.map_congr_left
        intro k _
        simp only [Function.comp_apply]
        show (((((src.rowsOf t).drop (k * c)).take ((k + 1) * c - k * c)).filter
            (src.selFn w)).map (src.projFn vars)) = _
        have hcc : (k + 1) * c - k * c = c := by
          rw [Nat.succ_mul]
          omega
        rw [hcc]
      rw [hmm]
      have h2 : ∀ (ls : List (List α)),
          (ls.map (fun l => (l.filter (src.selFn w)).map (src.projFn vars))).flatten =
            (ls.flatten.filter (src.selFn w)).map (src.projFn vars) := by
        intro ls
        induction ls with
        | nil => rfl
        | cons x ls ih =>
          simp only [List.map_cons, List.flatten_cons, List.filter_append,
            List.map_append, ih]
      rw [h2, chunk_partition c hc (src.rowsOf t).length (src.rowsOf t) (le_refl _)]
      rfl
    · intro hsel k hk
      have hget : ((List.range (ceilDiv (src.rowsOf t).length c)).map
          (fun k => convertDF vars
            (root2array src t vars (some (k * c, (k + 1) * c)) w))).get ⟨k, hk⟩ =
          convertDF vars (root2array src t vars (some (k * c, (k + 1) * c)) w) := by
        rw [List.get_eq_getElem, List.getElem_map]
        congr 1
        rw [List.getElem_range]
      rw [hget]
      show (((((src.rowsOf t).drop (k * c)).take ((k + 1) * c - k * c)).filter
          (src.selFn w)).map (src.projFn vars)).length = _
      have hcc : (k + 1) * c - k * c = c := by
        rw [Nat.succ_mul]
        omega
      rw [hcc]
      rw [List.filter_eq_self.mpr (fun a _ => hsel a)]
      simp only [List.length_map, List.length_take, List.length_drop]
      rw [Nat.succ_mul]
      omega
  · exact ⟨_, rfl, rfl⟩

/-- Witness for C1 at the ten-row single-branch source and `c = 3`. -/
theorem c1_chunked_read_witness :
    (0 < 3 ∧ (srcChunk.rowsOf treeT).length < 2 ^ 53 ∧ 3 < 2 ^ 53 ∧
      resolveVars srcChunk none .pynone .pynone =
      .ok (treeT, [nameAB])) ∧
    ((∃ dfs df,
      readRoot srcChunk none .pynone .pynone (some 3) none = .ok (.chunks dfs) ∧
      readRoot srcChunk none .pynone .pynone none none = .ok (.single df) ∧
      dfs.length = ceilDiv (srcChunk.rowsOf treeT).length 3 ∧
      (∀ k, ∀ hk : k < dfs.length,
        (dfs.get ⟨k, hk⟩).rows =
          ((((srcChunk.rowsOf treeT).take
              (min ((k + 1) * 3) (srcChunk.rowsOf treeT).length)).drop (k * 3)).filter
            (srcChunk.selFn none)).map (srcChunk.projFn [nameAB]) ∧
        (dfs.get ⟨k, hk⟩).indexed = df.indexed) ∧
      (dfs.map DFrame.rows).flatten = df.rows ∧
      ((∀ a, srcChunk.selFn none a = true) → ∀ k, ∀ hk : k < dfs.length,
        ((dfs.get ⟨k, hk⟩).rows).length =
          min ((k + 1) * 3) (srcChunk.rowsOf treeT).length - k * 3)) ∧
    (∃ dfsW, readRoot srcChunk none .pynone .pynone (some 3) none =
        .ok (.chunks dfsW) ∧
      dfsW.map (fun d => d.rows.length) = [3, 3, 3, 1])) :=
  ⟨⟨by decide, by decide, by decide, rfl⟩,
    c1_chunked_read srcChunk none .pynone .pynone none 3 (by decide) treeT
      [nameAB] (by decide) (by decide) rfl⟩
